import Mathlib

/-!
Verification of the placeholder replace/restore engine
(a Figma plugin that substitutes `@key` placeholders in text nodes with
variable values and restores them later from a per-node backup).

The development shallowly embeds the two engine evolutions found in the
source: the offset-tracked, font-preserving engine (`replacePlaceholdersInNode`
and `restorePlaceholdersInNode` of the unnamed source file) and the legacy
whole-text-replace engine (`replacePlaceholdersInNode` of `code.js`, embedded
here as `replacePlaceholdersInNode2`), plus the selection-change state machine.

Modelling conventions:
* Text is a list of styled characters (`SChar`), one font per character;
  `node.characters` is the projection `chars`.
* Host calls are embedded at their interface: `getRangeFontName` on a
  single in-range character returns that character's font (a one-character
  range is never `figma.mixed`); `insertCharacters (idx, s, "BEFORE")`
  inserts characters inheriting the font of the preceding character;
  `setRangeFontName`/`deleteCharacters` act on in-range spans; font *loading*
  (`loadFontAsync`, `safeLoadFontsForNode`, `safeLoadFonts`) never changes
  text or styling, its only observable outcome is the success flag of the
  icon-font load, modelled by `Env.iconLoadOk`.
* `setPluginData`/`getPluginData` for the backup key are modelled by the
  `backup : Option Backup` field of a node (an empty string or a parse
  failure reads back as `none`); the timestamp field of the payload is
  not modelled (nothing reads it).
* JavaScript numbers used for the `start` of a `RestoreRecord` are `Int`
  (the running delta can be negative); all other indices are `Nat`.
* JS string keys and values are `List Char`; a JS object used as a map is
  an association list updated by `objSet` (insertion order preserved,
  assignment to an existing key overwrites in place).
* The regex scanners are embedded as fuel-indexed tokenizers (`scanWith`)
  so that they compute by kernel reduction; the fuel `text.length` is
  always sufficient because every step consumes at least one character.
-/

namespace PRR

/-- A font descriptor `{ family, style }`. -/
structure Font where
  family : List Char
  style : List Char
deriving DecidableEq

/-- One character of a text node together with its font. -/
structure SChar where
  ch : Char
  font : Font
deriving DecidableEq

/-- The character/styling content of a text node. -/
abbrev Text := List SChar

/-- `node.characters`: the plain characters of the node. -/
def chars (t : Text) : List Char := t.map SChar.ch

/-- Fallback font used when indexing outside the node (never reached on
the in-range accesses the engines perform). -/
def defaultFont : Font := { family := [], style := [] }

/-- The font of the character at index `i` (`defaultFont` out of range). -/
def fontAtD (l : Text) (i : Nat) : Font :=
  match l.get? i with
  | some sc => sc.font
  | none => defaultFont

/-- Font inherited by `insertCharacters (i, s, "BEFORE")`: the font of the
character before the insertion point (of the following one at index 0). -/
def inheritFont (l : Text) (i : Nat) : Font :=
  if i = 0 then fontAtD l 0 else fontAtD l (i - 1)

/-- `insertCharacters(i, s, "BEFORE")`. -/
def insertChars (l : Text) (i : Nat) (s : List Char) : Text :=
  l.take i ++ s.map (fun c => { ch := c, font := inheritFont l i }) ++ l.drop i

/-- `setRangeFontName(s, e, f)`: restyle the characters in `[s, e)`. -/
def setFontRange (l : Text) (s e : Nat) (f : Font) : Text :=
  l.take s ++ ((l.drop s).take (e - s)).map (fun sc => { sc with font := f }) ++ l.drop e

/-- `deleteCharacters(s, e)`: remove the characters in `[s, e)`. -/
def deleteRange (l : Text) (s e : Nat) : Text :=
  l.take s ++ l.drop e

/-- `text.slice(s, s + n)` (also used to read spans of a node). -/
def sliceAt (l : List α) (s n : Nat) : List α := (l.drop s).take n

/- ## Placeholder scanner

The source scans with a global regex:
* offset-tracked engine: `/@([a-zA-Z0-9_\-\/]+(?:\.[a-zA-Z0-9_\-\/]+)*)/g`
* legacy engine (`code.js`): `/@([a-zA-Z0-9_.\-\/]+)/g`

Both are `@` followed by a greedy key; they differ only in the key
grammar, so the tokenizer is parameterised by the key-length function. -/

/-- Characters allowed in a path segment: `[a-zA-Z0-9_\-\/]`. -/
def isWordChar (c : Char) : Bool :=
  c.isAlpha || c.isDigit || c == '_' || c == '-' || c == '/'

/-- Characters allowed in a `code.js` key: `[a-zA-Z0-9_.\-\/]`. -/
def isWordChar2 (c : Char) : Bool := isWordChar c || c == '.'

/-- Length of the maximal leading run of segment characters. -/
def segLen (l : List Char) : Nat := (l.takeWhile isWordChar).length

/-- Length matched by the greedy `(?:\.[a-zA-Z0-9_\-\/]+)*` tail.  The
fuel dominates the list length; each iteration consumes `1 + n ≥ 2`. -/
def dotsLen : Nat → List Char → Nat
  | 0, _ => 0
  | _ + 1, [] => 0
  | fuel + 1, c :: rest =>
    if c = '.' then
      if segLen rest = 0 then 0
      else 1 + segLen rest + dotsLen fuel (rest.drop (segLen rest))
    else 0

/-- Length of the key matched by the offset-tracked engine's regex right
after the `@` (0 when the regex does not match here). -/
def keyLen (l : List Char) : Nat :=
  let n := segLen l
  if n = 0 then 0 else n + dotsLen l.length (l.drop n)

/-- Length of the key matched by the legacy `code.js` regex. -/
def keyLen2 (l : List Char) : Nat := (l.takeWhile isWordChar2).length

/-- One regex match: `{ key: m[1], start: m.index, len: m[0].length,
raw: m[0] }`. -/
structure Match where
  key : List Char
  start : Nat
  len : Nat
  raw : List Char
deriving DecidableEq

/-- The `while ((m = REGEX.exec(text)) !== null)` loop: left-to-right,
greedy, non-overlapping; scanning resumes at `lastIndex` (the end of the
previous match).  A position where the key grammar does not match after
`@` is skipped one character at a time, like the regex engine does. -/
def scanWith (klen : List Char → Nat) : Nat → List Char → Nat → List Match
  | 0, _, _ => []
  | _ + 1, [], _ => []
  | fuel + 1, c :: rest, pos =>
    if c = '@' then
      let k := klen rest
      if k = 0 then scanWith klen fuel rest (pos + 1)
      else { key := rest.take k, start := pos, len := k + 1, raw := '@' :: rest.take k }
        :: scanWith klen fuel (rest.drop k) (pos + 1 + k)
    else scanWith klen fuel rest (pos + 1)

/-- Matches of the offset-tracked engine's `PLACEHOLDER_REGEX` over `text`. -/
def scanPlaceholders (text : List Char) : List Match :=
  scanWith keyLen text.length text 0

/-- Matches of the legacy `code.js` `PLACEHOLDER_REGEX` over `text`. -/
def scanPlaceholders2 (text : List Char) : List Match :=
  scanWith keyLen2 text.length text 0

/- ## Variable store and resolver -/

/-- The object returned by `variable.resolveForConsumer(consumer)`;
`value` is `none` when the `.value` field is absent/undefined. -/
structure ResolvedObj where
  value : Option (List Char)
deriving DecidableEq

/-- A STRING variable as the engines see it.  `resolveForConsumer` is
`none` when the host object has no such function; otherwise it is the
outcome of calling it on the consumer node — a value, or a thrown
exception (`Except.error`), which `resolveVariableValue` catches. -/
structure VariableRec where
  name : List Char
  variableCollectionId : Nat
  resolveForConsumer : Option (Except (List Char) ResolvedObj)
  valuesByMode : List (List Char × List Char)

/-- `findStringVariable(name, collection)`:
`vars.find(v => v.name === name && v.variableCollectionId === collection.id)`. -/
def findStringVariable (vars : List VariableRec) (name : List Char)
    (collectionId : Nat) : Option VariableRec :=
  vars.find? (fun v => v.name == name && v.variableCollectionId == collectionId)

/-- `resolveVariableValue(variable, consumer)`.  Total: every exception
raised inside consumer-specific resolution is caught (`catch` → `""`);
the declared-throwing paths are confined to the `Except` inspected here,
so nothing propagates to the caller.  `resolved.value ? resolved.value :
""` is a truthiness test: an absent or empty `.value` gives `""`.  The
`valuesByMode` fallback takes the first key's value (values of STRING
variables are strings, so `typeof v === "string"` holds and `v` is
returned as is; an empty map gives `String(undefined ? undefined : "") =
""`). -/
def resolveVariableValue (vr : VariableRec) (consumerPresent : Bool) :
    List Char :=
  match consumerPresent, vr.resolveForConsumer with
  | true, some r =>
    match r with
    | Except.error _ => []
    | Except.ok resolved =>
      match resolved.value with
      | some v => if v.isEmpty then [] else v
      | none => []
  | _, _ =>
    match vr.valuesByMode with
    | [] => []
    | (_, v) :: _ => v

/-- The environment a substitution pass runs in: the variable store, the
collection resolved by `getOrCreateCollection` (its id and name), the
document icon-font settings, and whether `loadFontAsync` on the icon font
succeeds. -/
structure Env where
  vars : List VariableRec
  collectionId : Nat
  collectionName : List Char
  iconFontFamily : List Char
  iconFontStyle : List Char
  iconLoadOk : Bool

/-- Key lookup as the replace loops perform it: `findStringVariable`
followed (when found) by `resolveVariableValue(variable, node)` — the
consumer node is always a truthy object.  `none` is the "variable not
found" case that leaves a match untouched. -/
def resolveKey (env : Env) (k : List Char) : Option (List Char) :=
  (findStringVariable env.vars k env.collectionId).map
    (fun v => resolveVariableValue v true)

/- ## Backup store -/

/-- A persisted `RestoreRecord`: `{ start, len, originalText,
originalFont }`.  `start` is a JS number that can be produced by signed
arithmetic, hence `Int`. -/
structure RestoreRecord where
  start : Int
  len : Nat
  originalText : List Char
  originalFont : Option Font
deriving DecidableEq

/-- The backup payload stored in node plugin data (`prr:backup`):
`{ original, snapshot, collection, replacements, ts }`.  `replacements`
is `none` for a legacy payload that has no such array (the `ts`
timestamp is never read and is not modelled). -/
structure Backup where
  original : List Char
  snapshot : List (List Char × List Char)
  collection : List Char
  replacements : Option (List RestoreRecord)
deriving DecidableEq

/-- A text node: its styled characters plus the plugin-data backup slot
(`none` models both an empty string and an unparsable payload). -/
structure TextNode where
  content : Text
  backup : Option Backup
deriving DecidableEq

/-- JS object assignment `snapshot[k] = v`: overwrite in place if the key
exists, else append (insertion order preserved). -/
def objSet (m : List (List Char × List Char)) (k v : List Char) :
    List (List Char × List Char) :=
  match m with
  | [] => [(k, v)]
  | (k1, v1) :: rest =>
    if k1 = k then (k, v) :: rest else (k1, v1) :: objSet rest k v

/-- JS object read `snapshot[k]` (`none` when the key is absent). -/
def objGet (m : List (List Char × List Char)) (k : List Char) :
    Option (List Char) :=
  match m with
  | [] => none
  | (k1, v1) :: rest => if k1 = k then some v1 else objGet rest k

/- ## Substitution engine (offset-tracked, font-preserving evolution) -/

/-- An ephemeral replacement op pushed onto `ops`:
`{ start, removeLen, insertText, isIcon, originalFont }`. -/
structure Op where
  start : Nat
  removeLen : Nat
  insertText : List Char
  isIcon : Bool
  originalFont : Option Font
deriving DecidableEq

/-- `mm.key.startsWith("icon/")`. -/
def isIconKey (k : List Char) : Bool := List.isPrefixOf ('i' :: 'c' :: 'o' :: 'n' :: '/' :: []) k

/-- The font captured for a match:
`node.getRangeFontName(mm.start, mm.start + 1)` inside `try`.  A
one-character in-range read returns that character's font and is never
`figma.mixed`; an out-of-range read throws and the `catch` leaves
`originalFont` null. -/
def capturedFontOf (orig : Text) (m : Match) : Option Font :=
  if m.start < orig.length then some (fontAtD orig m.start) else none

/-- The `for (const mm of matches)` loop of the offset-tracked engine:
builds `snapshot`, `replacements`, `ops` and `hasIconReplacement`,
threading `runningDelta`.  A key whose variable is not found is skipped
entirely (`continue`); otherwise `resolveVariableValue` always yields a
string (`typeof val === "string"` holds, so the `String(val || "")`
coercion is the identity). -/
def buildPass (env : Env) (orig : Text) :
    List Match → Int → List (List Char × List Char) →
    List (List Char × List Char) × List RestoreRecord × List Op × Bool
  | [], _, snap => (snap, [], [], false)
  | mm :: rest, runningDelta, snap =>
    match findStringVariable env.vars mm.key env.collectionId with
    | none => buildPass env orig rest runningDelta snap
    | some vr =>
      let resolvedValue := resolveVariableValue vr true
      let snap1 := objSet snap mm.key resolvedValue
      let isIcon := isIconKey mm.key
      let originalFont := capturedFontOf orig mm
      let finalStart : Int := (mm.start : Int) + runningDelta
      match buildPass env orig rest
          (runningDelta + ((resolvedValue.length : Int) - (mm.len : Int))) snap1 with
      | (snapOut, reps, ops, hi) =>
        (snapOut,
         { start := finalStart, len := resolvedValue.length,
           originalText := mm.raw, originalFont := originalFont } :: reps,
         { start := mm.start, removeLen := mm.len, insertText := resolvedValue,
           isIcon := isIcon, originalFont := originalFont } :: ops,
         isIcon || hi)

/-- The icon font descriptor `{ family: iconFontFamily, style:
iconFontStyle || "Regular" }`. -/
def iconFontOf (env : Env) : Font :=
  { family := env.iconFontFamily,
    style := if env.iconFontStyle.isEmpty
             then 'R' :: 'e' :: 'g' :: 'u' :: 'l' :: 'a' :: 'r' :: []
             else env.iconFontStyle }

/-- The body of the reverse replacement loop for one op: insert the
resolved value before the placeholder (inheriting style), restyle exactly
the inserted span (icon font when routed and loaded, else the captured
original font when present — a failed `setRangeFontName` would be caught
and leave styling as inherited, which the in-range uses here never hit),
then delete the original placeholder characters, now shifted right by the
inserted length.  An empty `insertText` skips the insert and restyle. -/
def applyOp (env : Env) (iconFontLoaded : Bool) (content : Text) (op : Op) : Text :=
  let content1 :=
    if 0 < op.insertText.length then
      let inserted := insertChars content op.start op.insertText
      let insertEnd := op.start + op.insertText.length
      if op.isIcon && iconFontLoaded then
        setFontRange inserted op.start insertEnd (iconFontOf env)
      else
        match op.originalFont with
        | some f => setFontRange inserted op.start insertEnd f
        | none => inserted
    else content
  let delStart := op.start + op.insertText.length
  deleteRange content1 delStart (delStart + op.removeLen)

/-- `for (let i = ops.length - 1; i >= 0; i--)`: apply the ops
right-to-left (the last pushed op is applied first). -/
def applyOpsRev (env : Env) (iconFontLoaded : Bool) (ops : List Op)
    (content : Text) : Text :=
  ops.foldr (fun op c => applyOp env iconFontLoaded c op) content

/-- Result of a substitution pass: the node afterwards, plus the
`{ changed, snapshot }` report. -/
structure ReplaceResult where
  node : TextNode
  changed : Bool
  snapshot : Option (List (List Char × List Char))
deriving DecidableEq

/-- `replacePlaceholdersInNode(node, collectionName)` — the
offset-tracked engine.  Zero scanner matches, or zero ops after the
unresolved keys are skipped, clear the backup and report no change.
Otherwise the backup (pre-mutation text, snapshot, collection name,
replacement records) is saved before the text is mutated, and the ops are
applied right-to-left.  `safeLoadFontsForNode` and the icon-font load
only affect the `iconFontLoaded` flag. -/
def replacePlaceholdersInNode (env : Env) (node : TextNode) : ReplaceResult :=
  let text := chars node.content
  let ms := scanPlaceholders text
  if ms.isEmpty then
    { node := { node with backup := none }, changed := false, snapshot := none }
  else
    match buildPass env node.content ms 0 [] with
    | (snapshot, replacements, ops, hasIconReplacement) =>
      if ops.isEmpty then
        { node := { node with backup := none }, changed := false, snapshot := none }
      else
        let iconFontLoaded :=
          hasIconReplacement && !env.iconFontFamily.isEmpty && env.iconLoadOk
        { node :=
            { content := applyOpsRev env iconFontLoaded ops node.content,
              backup := some
                { original := text, snapshot := snapshot,
                  collection := env.collectionName,
                  replacements := some replacements } },
          changed := true, snapshot := some snapshot }

/- ## Restoration engine (offset-tracked evolution) -/

/-- Result of a restoration pass. -/
structure RestoreResult where
  node : TextNode
  restored : Bool
deriving DecidableEq

/-- Stable insertion of a record into a list sorted descending by
`start`, matching `[...].sort((a, b) => b.start - a.start)` of a modern
(stable) JS engine: among equal starts the earlier record stays first. -/
def insertByStartDesc (r : RestoreRecord) :
    List RestoreRecord → List RestoreRecord
  | [] => [r]
  | x :: xs =>
    if x.start ≤ r.start then r :: x :: xs else x :: insertByStartDesc r xs

/-- `[...backup.replacements].sort((a, b) => b.start - a.start)`. -/
def sortDescByStart : List RestoreRecord → List RestoreRecord
  | [] => []
  | x :: xs => insertByStartDesc x (sortDescByStart xs)

/-- The body of the restore loop for one record: insert the placeholder
text before the resolved value, restyle the inserted span with the
captured font when present, then delete the value, now shifted right by
the placeholder's length. -/
def restoreStep (content : Text) (rep : RestoreRecord) : Text :=
  let s := rep.start.toNat
  let inserted := insertChars content s rep.originalText
  let styled :=
    match rep.originalFont with
    | some f => setFontRange inserted s (s + rep.originalText.length) f
    | none => inserted
  let delStart := s + rep.originalText.length
  deleteRange styled delStart (delStart + rep.len)

/-- `node.characters = s` (whole-text assignment): the characters are
replaced and per-run styling collapses to a single font. -/
def setCharacters (old : Text) (s : List Char) : Text :=
  s.map (fun c => { ch := c, font := fontAtD old 0 })

/-- `restorePlaceholdersInNode(node)` — the offset-tracked engine.  With
no (readable) backup it is a no-op reporting not-restored.  A backup
whose `replacements` field is an array (possibly empty) takes the
record-driven path: records are applied right-to-left (descending
`start`) and the backup is cleared.  Otherwise a truthy `original` falls
back to a whole-text replace; a backup with neither reports
not-restored without clearing. -/
def restorePlaceholdersInNode (node : TextNode) : RestoreResult :=
  match node.backup with
  | none => { node := node, restored := false }
  | some backup =>
    match backup.replacements with
    | some replacements =>
      let reps := sortDescByStart replacements
      { node := { content := reps.foldl restoreStep node.content, backup := none },
        restored := true }
    | none =>
      if backup.original.isEmpty then { node := node, restored := false }
      else
        { node := { content := setCharacters node.content backup.original,
                    backup := none },
          restored := true }

/- ## Legacy whole-text-replace engine (`code.js`) -/

/-- The left-to-right rebuild loop of the legacy engine: copy the text
between matches, then the resolved value (recording it in the snapshot)
or, when the variable is not found, the original matched text;
`lastIndex` tracks the end of the previous match. -/
def buildOut2 (env : Env) (text : List Char) :
    List Match → Nat → List Char → List (List Char × List Char) →
    List Char × List (List Char × List Char)
  | [], lastIndex, out, snap => (out ++ text.drop lastIndex, snap)
  | mm :: rest, lastIndex, out, snap =>
    let out1 := out ++ sliceAt text lastIndex (mm.start - lastIndex)
    match findStringVariable env.vars mm.key env.collectionId with
    | some vr =>
      let replacement := resolveVariableValue vr true
      buildOut2 env text rest (mm.start + mm.len) (out1 ++ replacement)
        (objSet snap mm.key replacement)
    | none =>
      buildOut2 env text rest (mm.start + mm.len)
        (out1 ++ sliceAt text mm.start mm.len) snap

/-- `replacePlaceholdersInNode(node, collectionName)` — the legacy
`code.js` engine.  Zero matches return no-change *without* clearing any
backup; otherwise the rebuilt text is assigned wholesale after a backup
(with no `replacements` array) is saved, and the pass reports changed
even when every key was unresolved. -/
def replacePlaceholdersInNode2 (env : Env) (node : TextNode) : ReplaceResult :=
  let text := chars node.content
  let ms := scanPlaceholders2 text
  if ms.isEmpty then { node := node, changed := false, snapshot := none }
  else
    match buildOut2 env text ms 0 [] [] with
    | (out, snapshot) =>
      { node :=
          { content := setCharacters node.content out,
            backup := some
              { original := text, snapshot := snapshot,
                collection := env.collectionName, replacements := none } },
        changed := true, snapshot := some snapshot }

/- ## Selection state machine -/

/-- The plugin's runtime selection state: the feature flag, the
re-entrancy guard, the last focused text-node id, and the text nodes of
the document (an id-keyed association list; ids absent from it are
non-TEXT or deleted nodes). -/
structure PluginState where
  featureEnabled : Bool
  processing : Bool
  lastSelectedNodeId : Option Nat
  doc : List (Nat × TextNode)

/-- `figma.getNodeByIdAsync` restricted to TEXT nodes. -/
def docFind (doc : List (Nat × TextNode)) (i : Nat) : Option TextNode :=
  (doc.find? (fun p => p.1 == i)).map Prod.snd

/-- Write back the (mutated-in-place) node with id `i`. -/
def docSet (doc : List (Nat × TextNode)) (i : Nat) (n : TextNode) :
    List (Nat × TextNode) :=
  doc.map (fun p => if p.1 == i then (i, n) else p)

/-- `newId`: the id of the selected node when the selection is exactly
one TEXT node, else `null`. -/
def newSelectedId (st : PluginState) (sel : List Nat) : Option Nat :=
  match sel with
  | [i] => if (docFind st.doc i).isSome then some i else none
  | _ => none

/-- `handleSelectionChange()` for one debounced event with selection
`sel`.  A disabled feature or a set `processing` guard returns before
anything (including the final id update) happens.  Otherwise: edit-finish
(substitution) on the previously focused node when focus moved away,
edit-start (restoration) on a newly selected text node, then
`lastSelectedNodeId = newId`.  The `processing` flag is set around each
action and reset in `finally`, so it ends as it started (false on this
path); both actions are modelled by their node effect. -/
def handleSelectionChange (env : Env) (st : PluginState) (sel : List Nat) :
    PluginState :=
  if st.featureEnabled = false then st
  else if st.processing = true then st
  else
    let newId := newSelectedId st sel
    let st1 :=
      match st.lastSelectedNodeId with
      | none => st
      | some prevId =>
        if newId = some prevId then st
        else
          match docFind st.doc prevId with
          | none => st
          | some prevNode =>
            { st with
              doc := docSet st.doc prevId
                (replacePlaceholdersInNode env prevNode).node }
    let st2 :=
      match newId with
      | none => st1
      | some i =>
        if some i = st.lastSelectedNodeId then st1
        else
          match docFind st1.doc i with
          | none => st1
          | some n =>
            { st1 with doc := docSet st1.doc i (restorePlaceholdersInNode n).node }
    { st2 with lastSelectedNodeId := newId }

/- ## Derived specification functions

These repackage what the imperative loops compute so that theorems can
be stated structurally; each is proved equal to the corresponding loop
below. -/

/-- The actionable matches of a pass — those whose key resolves — paired
with their resolved values, in scan order. -/
def actsOf (env : Env) (ms : List Match) : List (Match × List Char) :=
  ms.filterMap (fun m => (resolveKey env m.key).map (fun v => (m, v)))

/-- The op pushed for one actionable match. -/
def opFor (orig : Text) (m : Match) (v : List Char) : Op :=
  { start := m.start, removeLen := m.len, insertText := v,
    isIcon := isIconKey m.key, originalFont := capturedFontOf orig m }

/-- The ops of a pass, in scan order. -/
def opsOf (orig : Text) (acts : List (Match × List Char)) : List Op :=
  acts.map (fun a => opFor orig a.1 a.2)

/-- The restore record pushed for one actionable match, given the
running delta accumulated so far. -/
def recFor (orig : Text) (delta : Int) (m : Match) (v : List Char) :
    RestoreRecord :=
  { start := (m.start : Int) + delta, len := v.length, originalText := m.raw,
    originalFont := capturedFontOf orig m }

/-- The restore records of a pass, threading the running delta. -/
def recordsOf (orig : Text) : Int → List (Match × List Char) → List RestoreRecord
  | _, [] => []
  | delta, (m, v) :: rest =>
    recFor orig delta m v ::
      recordsOf orig (delta + ((v.length : Int) - (m.len : Int))) rest

/-- The snapshot of a pass: sequential JS-object assignment over the
actionable matches. -/
def snapOf (acts : List (Match × List Char))
    (snap : List (List Char × List Char)) : List (List Char × List Char) :=
  acts.foldl (fun s a => objSet s a.1.key a.2) snap

/-- Whether any actionable match is icon-routed. -/
def hasIconOf (acts : List (Match × List Char)) : Bool :=
  acts.any (fun a => isIconKey a.1.key)

/-- The `iconFontLoaded` flag of a pass. -/
def iconLoadedOf (env : Env) (acts : List (Match × List Char)) : Bool :=
  hasIconOf acts && !env.iconFontFamily.isEmpty && env.iconLoadOk

/-- Well-formedness of a scanner output over text `T`, from a lower
bound `lo`: matches are in order, non-overlapping, in bounds, have a
non-empty key, and carry the matched slice as `raw = '@' :: key`. -/
def ScanWF (T : List Char) : Nat → List Match → Prop
  | _, [] => True
  | lo, m :: rest =>
    lo ≤ m.start ∧ 0 < m.key.length ∧ m.len = m.key.length + 1 ∧
    m.start + m.len ≤ T.length ∧ m.raw = '@' :: m.key ∧
    sliceAt T m.start m.len = m.raw ∧ ScanWF T (m.start + m.len) rest

/- ## Basic list facts -/

theorem length_takeWhile_le (p : α → Bool) (l : List α) :
    (l.takeWhile p).length ≤ l.length := by
  induction l with
  | nil => simp [List.takeWhile]
  | cons a l ih =>
    simp only [List.takeWhile]
    cases p a
    · simp
    · simp only [List.length_cons]
      omega

theorem chars_append (a b : Text) : chars (a ++ b) = chars a ++ chars b := by
  simp [chars]

theorem chars_take (a : Text) (n : Nat) : chars (a.take n) = (chars a).take n := by
  simp [chars, List.map_take]

theorem chars_drop (a : Text) (n : Nat) : chars (a.drop n) = (chars a).drop n := by
  simp [chars, List.map_drop]

theorem length_chars (a : Text) : (chars a).length = a.length := by
  simp [chars]

theorem sliceAt_append_mid (a b c : List α) (s n : Nat) (hs : s = a.length)
    (hn : n = b.length) : sliceAt (a ++ b ++ c) s n = b := by
  subst hs hn
  rw [sliceAt, List.append_assoc, List.drop_left, List.take_left]

/- ## Scanner well-formedness -/

theorem dotsLen_le (fuel : Nat) (l : List Char) : dotsLen fuel l ≤ l.length := by
  induction fuel generalizing l with
  | zero => simp [dotsLen]
  | succ fuel ih =>
    match l with
    | [] => simp [dotsLen]
    | c :: rest =>
      simp only [dotsLen]
      by_cases hc : c = '.'
      · rw [if_pos hc]
        by_cases h0 : segLen rest = 0
        · rw [if_pos h0]; simp
        · rw [if_neg h0]
          have h1 : segLen rest ≤ rest.length := length_takeWhile_le _ _
          have h2 := ih (rest.drop (segLen rest))
          rw [List.length_drop] at h2
          simp only [List.length_cons]
          omega
      · rw [if_neg hc]; simp

theorem keyLen_le (l : List Char) : keyLen l ≤ l.length := by
  rw [keyLen]
  by_cases h0 : segLen l = 0
  · simp [h0]
  · have h1 : segLen l ≤ l.length := length_takeWhile_le _ _
    have h2 := dotsLen_le l.length (l.drop (segLen l))
    rw [List.length_drop] at h2
    simp only [if_neg h0]
    omega

theorem keyLen2_le (l : List Char) : keyLen2 l ≤ l.length :=
  length_takeWhile_le _ _

theorem ScanWF_mono (T : List Char) (lo lo2 : Nat) (ms : List Match)
    (h : ScanWF T lo2 ms) (hle : lo ≤ lo2) : ScanWF T lo ms := by
  match ms with
  | [] => trivial
  | m :: rest =>
    simp only [ScanWF] at h ⊢
    exact ⟨le_trans hle h.1, h.2⟩

theorem scanWith_wf (klen : List Char → Nat) (hk : ∀ l, klen l ≤ l.length)
    (T : List Char) :
    ∀ (fuel : Nat) (suffix : List Char) (pos : Nat),
      suffix.length ≤ fuel → T.drop pos = suffix →
      ScanWF T pos (scanWith klen fuel suffix pos) := by
  intro fuel
  induction fuel with
  | zero => intro suffix pos _ _; simp [scanWith, ScanWF]
  | succ fuel ih =>
    intro suffix pos hlen hdrop
    match suffix with
    | [] => simp [scanWith, ScanWF]
    | c :: rest =>
      have hrest : T.drop (pos + 1) = rest := by
        rw [← List.drop_drop 1 pos T, hdrop]
        rfl
      have hlen2 : rest.length + 1 ≤ fuel + 1 := by simpa using hlen
      have hlenT : T.length = pos + rest.length + 1 := by
        have h1 := List.length_drop pos T
        rw [hdrop] at h1
        simp only [List.length_cons] at h1
        omega
      simp only [scanWith]
      by_cases hc : c = '@'
      · rw [if_pos hc]
        by_cases hk0 : klen rest = 0
        · rw [if_pos hk0]
          exact ScanWF_mono T pos (pos + 1) _
            (ih rest (pos + 1) (by omega) hrest) (by omega)
        · rw [if_neg hk0]
          have hkle : klen rest ≤ rest.length := hk rest
          have hkey : (rest.take (klen rest)).length = klen rest := by
            rw [List.length_take]; omega
          refine ⟨le_refl _, ?_, ?_, ?_, rfl, ?_, ?_⟩
          · show 0 < (rest.take (klen rest)).length
            omega
          · show klen rest + 1 = (rest.take (klen rest)).length + 1
            omega
          · show pos + (klen rest + 1) ≤ T.length
            omega
          · show sliceAt T pos (klen rest + 1) = '@' :: rest.take (klen rest)
            rw [sliceAt, hdrop, hc]
            simp [List.take_succ_cons]
          · show ScanWF T (pos + (klen rest + 1))
              (scanWith klen fuel (rest.drop (klen rest)) (pos + 1 + klen rest))
            have hdrop2 : T.drop (pos + 1 + klen rest) = rest.drop (klen rest) := by
              rw [← List.drop_drop (klen rest) (pos + 1) T, hrest]
            have hgoal := ih (rest.drop (klen rest)) (pos + 1 + klen rest)
              (by rw [List.length_drop]; omega) hdrop2
            have hpos : pos + (klen rest + 1) = pos + 1 + klen rest := by omega
            rw [hpos]
            exact hgoal
      · rw [if_neg hc]
        exact ScanWF_mono T pos (pos + 1) _
          (ih rest (pos + 1) (by omega) hrest) (by omega)

theorem scanPlaceholders_wf (T : List Char) : ScanWF T 0 (scanPlaceholders T) :=
  scanWith_wf keyLen keyLen_le T T.length T 0 (le_refl _) (by simp)

theorem scanPlaceholders2_wf (T : List Char) : ScanWF T 0 (scanPlaceholders2 T) :=
  scanWith_wf keyLen2 keyLen2_le T T.length T 0 (le_refl _) (by simp)

/- ## The replace loop computes the derived forms -/

theorem buildPass_eq (env : Env) (orig : Text) (ms : List Match) :
    ∀ (delta : Int) (snap : List (List Char × List Char)),
      buildPass env orig ms delta snap =
        (snapOf (actsOf env ms) snap, recordsOf orig delta (actsOf env ms),
         opsOf orig (actsOf env ms), hasIconOf (actsOf env ms)) := by
  induction ms with
  | nil =>
    intro delta snap
    simp [buildPass, actsOf, snapOf, recordsOf, opsOf, hasIconOf]
  | cons m rest ih =>
    intro delta snap
    simp only [buildPass]
    cases hfind : findStringVariable env.vars m.key env.collectionId with
    | none =>
      simp only [hfind]
      rw [ih]
      simp [actsOf, resolveKey, hfind]
    | some vr =>
      simp only [hfind]
      rw [ih]
      simp [actsOf, resolveKey, hfind, snapOf, recordsOf, recFor, opsOf, opFor,
        hasIconOf]

/- ## Structural description of the substituted text -/

/-- The font applied to the span inserted for an actionable match: the
icon font when the match is icon-routed and the icon font loaded, else
the captured original font. -/
def valFont (env : Env) (loaded : Bool) (orig : Text) (m : Match) : Font :=
  if isIconKey m.key && loaded then iconFontOf env
  else (capturedFontOf orig m).getD defaultFont

/-- What the right-to-left op application produces, described
left-to-right: the text between matches is kept (styled as it was), an
unresolved match is kept verbatim, an actionable match contributes its
resolved value styled with `valFont`.  `base` is the absolute position
of `suffix` in the original text. -/
def substFrom (env : Env) (loaded : Bool) (orig : Text) :
    Nat → List Match → Text → Text
  | _, [], suffix => suffix
  | base, m :: rest, suffix =>
    match resolveKey env m.key with
    | none =>
      suffix.take (m.start + m.len - base) ++
        substFrom env loaded orig (m.start + m.len) rest
          (suffix.drop (m.start + m.len - base))
    | some v =>
      suffix.take (m.start - base) ++
        v.map (fun c => { ch := c, font := valFont env loaded orig m }) ++
        substFrom env loaded orig (m.start + m.len) rest
          (suffix.drop (m.start + m.len - base))

theorem insertChars_eq (l1 l2 : Text) (i : Nat) (s : List Char)
    (h : l1.length = i) :
    insertChars (l1 ++ l2) i s =
      l1 ++ s.map (fun c => { ch := c, font := inheritFont (l1 ++ l2) i }) ++ l2 := by
  rw [insertChars, List.take_left' h, List.drop_left' h]

theorem setFontRange_eq (l1 l2 l3 : Text) (s e : Nat) (f : Font)
    (hs : l1.length = s) (he : s + l2.length = e) :
    setFontRange (l1 ++ l2 ++ l3) s e f =
      l1 ++ l2.map (fun sc => { sc with font := f }) ++ l3 := by
  have h1 : (l1 ++ l2 ++ l3).take s = l1 := by
    rw [List.append_assoc]; exact List.take_left' hs
  have h2 : (l1 ++ l2 ++ l3).drop s = l2 ++ l3 := by
    rw [List.append_assoc]; exact List.drop_left' hs
  have h3 : (l1 ++ l2 ++ l3).drop e = l3 := by
    apply List.drop_left'
    rw [List.length_append]; omega
  have h4 : (l2 ++ l3).take (e - s) = l2 := List.take_left' (by omega)
  rw [setFontRange, h1, h2, h3, h4]

theorem deleteRange_eq (l1 l2 l3 : Text) (s e : Nat)
    (hs : l1.length = s) (he : s + l2.length = e) :
    deleteRange (l1 ++ l2 ++ l3) s e = l1 ++ l3 := by
  have h1 : (l1 ++ l2 ++ l3).take s = l1 := by
    rw [List.append_assoc]; exact List.take_left' hs
  have h3 : (l1 ++ l2 ++ l3).drop e = l3 := by
    apply List.drop_left'
    rw [List.length_append]; omega
  rw [deleteRange, h1, h3]

/-- One op applied to a text split exactly around its placeholder span
replaces the span by the styled resolved value. -/
theorem applyOp_eq (env : Env) (loaded : Bool) (op : Op) (A P B : Text)
    (hA : A.length = op.start) (hP : P.length = op.removeLen)
    (hfont : (op.isIcon && loaded) = true ∨ ∃ f, op.originalFont = some f) :
    applyOp env loaded (A ++ P ++ B) op =
      A ++ op.insertText.map (fun c =>
        { ch := c,
          font := if op.isIcon && loaded then iconFontOf env
                  else op.originalFont.getD defaultFont }) ++ B := by
  simp only [applyOp]
  by_cases h0 : 0 < op.insertText.length
  case neg =>
    have hnil : op.insertText = [] := by
      cases hx : op.insertText with
      | nil => rfl
      | cons a l => rw [hx] at h0; simp at h0
    rw [if_neg h0, hnil]
    simp only [List.map_nil, List.length_nil, Nat.add_zero, List.nil_append]
    have hd : deleteRange (A ++ P ++ B) op.start (op.start + op.removeLen) = A ++ B :=
      deleteRange_eq A P B _ _ hA (by omega)
    rw [List.append_nil]
    exact hd
  case pos =>
    rw [if_pos h0]
    have hassoc : A ++ P ++ B = A ++ (P ++ B) := List.append_assoc A P B
    rw [hassoc, insertChars_eq A (P ++ B) op.start op.insertText hA]
    set inh := inheritFont (A ++ (P ++ B)) op.start with hinh
    set sInh := op.insertText.map (fun c => ({ ch := c, font := inh } : SChar)) with hsInh
    have hlen : sInh.length = op.insertText.length := by
      rw [hsInh, List.length_map]
    cases hicon : op.isIcon && loaded with
    | true =>
      simp only [hicon, if_true]
      have hset : setFontRange (A ++ sInh ++ (P ++ B)) op.start
          (op.start + op.insertText.length) (iconFontOf env) =
          A ++ sInh.map (fun sc => { sc with font := iconFontOf env }) ++ (P ++ B) :=
        setFontRange_eq A sInh (P ++ B) _ _ _ hA (by omega)
      rw [hset]
      have hmap : sInh.map (fun sc => { sc with font := iconFontOf env }) =
          op.insertText.map (fun c => ({ ch := c, font := iconFontOf env } : SChar)) := by
        rw [hsInh, List.map_map]
        rfl
      rw [hmap]
      set s2 := op.insertText.map (fun c => ({ ch := c, font := iconFontOf env } : SChar)) with hs2
      have hform : A ++ s2 ++ (P ++ B) = (A ++ s2) ++ P ++ B := by
        simp [List.append_assoc]
      rw [hform, deleteRange_eq (A ++ s2) P B
        (op.start + op.insertText.length)
        (op.start + op.insertText.length + op.removeLen)
        (by rw [List.length_append, hA, hs2, List.length_map])
        (by omega)]
    | false =>
      simp only [hicon, if_false, Bool.false_eq_true]
      obtain ⟨f, hf⟩ : ∃ f, op.originalFont = some f := by
        cases hfont with
        | inl h => rw [hicon] at h; simp at h
        | inr h => exact h
      rw [hf]
      simp only [Option.getD_some]
      have hset : setFontRange (A ++ sInh ++ (P ++ B)) op.start
          (op.start + op.insertText.length) f =
          A ++ sInh.map (fun sc => { sc with font := f }) ++ (P ++ B) :=
        setFontRange_eq A sInh (P ++ B) _ _ _ hA (by omega)
      rw [hset]
      have hmap : sInh.map (fun sc => { sc with font := f }) =
          op.insertText.map (fun c => ({ ch := c, font := f } : SChar)) := by
        rw [hsInh, List.map_map]
        rfl
      rw [hmap]
      set s2 := op.insertText.map (fun c => ({ ch := c, font := f } : SChar)) with hs2
      have hform : A ++ s2 ++ (P ++ B) = (A ++ s2) ++ P ++ B := by
        simp [List.append_assoc]
      rw [hform, deleteRange_eq (A ++ s2) P B
        (op.start + op.insertText.length)
        (op.start + op.insertText.length + op.removeLen)
        (by rw [List.length_append, hA, hs2, List.length_map])
        (by omega)]

/-- Destructuring view of `ScanWF` on a cons. -/
theorem ScanWF_cons {T : List Char} {lo : Nat} {m : Match} {rest : List Match} :
    ScanWF T lo (m :: rest) ↔
      lo ≤ m.start ∧ 0 < m.key.length ∧ m.len = m.key.length + 1 ∧
      m.start + m.len ≤ T.length ∧ m.raw = '@' :: m.key ∧
      sliceAt T m.start m.len = m.raw ∧ ScanWF T (m.start + m.len) rest :=
  Iff.rfl

/-- The right-to-left op application of a well-formed pass equals the
left-to-right splice `substFrom`. -/
theorem applyOpsRev_substFrom (env : Env) (loaded : Bool) (orig : Text) :
    ∀ (ms : List Match) (pre suffix : Text), orig = pre ++ suffix →
      ScanWF (chars orig) pre.length ms →
      applyOpsRev env loaded (opsOf orig (actsOf env ms)) orig =
        pre ++ substFrom env loaded orig pre.length ms suffix := by
  intro ms
  induction ms with
  | nil =>
    intro pre suffix horig hwf
    simp [actsOf, opsOf, applyOpsRev, substFrom, horig]
  | cons m rest ih =>
    intro pre suffix horig hwf
    obtain ⟨h1, h2, h3, h4, h5, h6, h7⟩ := ScanWF_cons.mp hwf
    rw [length_chars, horig, List.length_append] at h4
    have hk : m.start + m.len - pre.length = (m.start - pre.length) + m.len := by
      omega
    have hchunklen : (suffix.take (m.start + m.len - pre.length)).length
        = m.start + m.len - pre.length := by
      rw [List.length_take]; omega
    have hprelen : (pre ++ suffix.take (m.start + m.len - pre.length)).length
        = m.start + m.len := by
      rw [List.length_append, hchunklen]; omega
    have horig2 : orig = (pre ++ suffix.take (m.start + m.len - pre.length)) ++
        suffix.drop (m.start + m.len - pre.length) := by
      rw [horig, List.append_assoc, List.take_append_drop]
    have hwf2 : ScanWF (chars orig)
        ((pre ++ suffix.take (m.start + m.len - pre.length)).length) rest := by
      rw [hprelen]; exact h7
    have IH := ih (pre ++ suffix.take (m.start + m.len - pre.length))
      (suffix.drop (m.start + m.len - pre.length)) horig2 hwf2
    rw [hprelen] at IH
    cases hres : resolveKey env m.key with
    | none =>
      have hacts : actsOf env (m :: rest) = actsOf env rest := by
        simp [actsOf, hres]
      rw [hacts]
      simp only [substFrom, hres]
      rw [IH, List.append_assoc]
    | some v =>
      have hacts : actsOf env (m :: rest) = (m, v) :: actsOf env rest := by
        simp [actsOf, hres]
      rw [hacts]
      simp only [substFrom, hres]
      have hfold : applyOpsRev env loaded (opsOf orig ((m, v) :: actsOf env rest)) orig
          = applyOp env loaded
              (applyOpsRev env loaded (opsOf orig (actsOf env rest)) orig)
              (opFor orig m v) := by
        simp [opsOf, applyOpsRev]
      rw [hfold, IH]
      have hsplit : suffix.take (m.start + m.len - pre.length)
          = suffix.take (m.start - pre.length)
            ++ (suffix.drop (m.start - pre.length)).take m.len := by
        rw [hk, List.take_add]
      have hc1len : (suffix.take (m.start - pre.length)).length
          = m.start - pre.length := by
        rw [List.length_take]; omega
      have hphlen : ((suffix.drop (m.start - pre.length)).take m.len).length
          = m.len := by
        rw [List.length_take, List.length_drop]; omega
      have hstart : m.start < orig.length := by
        rw [horig, List.length_append]; omega
      have hA : (pre ++ suffix.take (m.start - pre.length)).length
          = (opFor orig m v).start := by
        show _ = m.start
        rw [List.length_append, hc1len]; omega
      have happly := applyOp_eq env loaded (opFor orig m v)
        (pre ++ suffix.take (m.start - pre.length))
        ((suffix.drop (m.start - pre.length)).take m.len)
        (substFrom env loaded orig (m.start + m.len) rest
          (suffix.drop (m.start + m.len - pre.length)))
        hA hphlen
        (Or.inr ⟨fontAtD orig m.start, by simp [opFor, capturedFontOf, hstart]⟩)
      rw [hsplit, ← List.append_assoc pre (suffix.take (m.start - pre.length))
        ((suffix.drop (m.start - pre.length)).take m.len), happly]
      simp [opFor, valFont, List.append_assoc]

/-- With no actionable match the splice leaves the suffix unchanged. -/
theorem substFrom_no_acts (env : Env) (loaded : Bool) (orig : Text) :
    ∀ (ms : List Match) (pre suffix : Text), orig = pre ++ suffix →
      ScanWF (chars orig) pre.length ms → actsOf env ms = [] →
      substFrom env loaded orig pre.length ms suffix = suffix := by
  intro ms
  induction ms with
  | nil => intro pre suffix _ _ _; rfl
  | cons m rest ih =>
    intro pre suffix horig hwf hacts
    obtain ⟨h1, h2, h3, h4, h5, h6, h7⟩ := ScanWF_cons.mp hwf
    rw [length_chars, horig, List.length_append] at h4
    cases hres : resolveKey env m.key with
    | some v =>
      exfalso
      simp [actsOf, List.filterMap_cons, hres] at hacts
    | none =>
      have hacts2 : actsOf env rest = [] := by
        simpa [actsOf, List.filterMap_cons, hres] using hacts
      have hchunklen : (suffix.take (m.start + m.len - pre.length)).length
          = m.start + m.len - pre.length := by
        rw [List.length_take]; omega
      have hprelen : (pre ++ suffix.take (m.start + m.len - pre.length)).length
          = m.start + m.len := by
        rw [List.length_append, hchunklen]; omega
      have horig2 : orig = (pre ++ suffix.take (m.start + m.len - pre.length)) ++
          suffix.drop (m.start + m.len - pre.length) := by
        rw [horig, List.append_assoc, List.take_append_drop]
      have hwf2 : ScanWF (chars orig)
          ((pre ++ suffix.take (m.start + m.len - pre.length)).length) rest := by
        rw [hprelen]; exact h7
      have IH := ih (pre ++ suffix.take (m.start + m.len - pre.length))
        (suffix.drop (m.start + m.len - pre.length)) horig2 hwf2 hacts2
      rw [hprelen] at IH
      simp only [substFrom, hres]
      rw [IH, List.take_append_drop]

/-- A pass with no actionable match (no scanner match at all, or every
key unresolved) clears the backup, keeps the text, reports no change. -/
theorem replace_no_acts (env : Env) (node : TextNode)
    (h : actsOf env (scanPlaceholders (chars node.content)) = []) :
    replacePlaceholdersInNode env node =
      { node := { node with backup := none }, changed := false,
        snapshot := none } := by
  simp only [replacePlaceholdersInNode]
  cases hx : scanPlaceholders (chars node.content) with
  | nil => simp
  | cons m rest =>
    rw [hx] at h
    simp only [List.isEmpty_cons, Bool.false_eq_true, if_false]
    rw [buildPass_eq, h]
    simp [opsOf]

/-- A pass with at least one actionable match: the backup is written
(pre-mutation text, snapshot, collection name, records) and the content
becomes the `substFrom` splice. -/
theorem replace_acts (env : Env) (node : TextNode)
    (h : actsOf env (scanPlaceholders (chars node.content)) ≠ []) :
    replacePlaceholdersInNode env node =
      { node :=
          { content :=
              substFrom env
                (iconLoadedOf env (actsOf env (scanPlaceholders (chars node.content))))
                node.content 0 (scanPlaceholders (chars node.content)) node.content,
            backup := some
              { original := chars node.content,
                snapshot := snapOf (actsOf env (scanPlaceholders (chars node.content))) [],
                collection := env.collectionName,
                replacements := some (recordsOf node.content 0
                  (actsOf env (scanPlaceholders (chars node.content)))) } },
        changed := true,
        snapshot := some (snapOf (actsOf env (scanPlaceholders (chars node.content))) []) } := by
  have hms : scanPlaceholders (chars node.content) ≠ [] := by
    intro h0
    apply h
    rw [h0]
    rfl
  simp only [replacePlaceholdersInNode]
  cases hx : scanPlaceholders (chars node.content) with
  | nil => exact absurd hx hms
  | cons m rest =>
    simp only [List.isEmpty_cons, Bool.false_eq_true, if_false]
    rw [buildPass_eq]
    rw [hx] at h
    have hops : (opsOf node.content (actsOf env (m :: rest))).isEmpty = false := by
      cases ha : actsOf env (m :: rest) with
      | nil => exact absurd ha h
      | cons a l => simp [opsOf, ha]
    simp only [hops, Bool.false_eq_true, if_false]
    have hwf0 : ScanWF (chars node.content) (([] : Text)).length (m :: rest) := by
      have h2 := scanPlaceholders_wf (chars node.content)
      rw [hx] at h2
      exact h2
    have hsub := applyOpsRev_substFrom env
      (iconLoadedOf env (actsOf env (m :: rest))) node.content (m :: rest)
      [] node.content (List.nil_append node.content).symm hwf0
    rw [List.nil_append] at hsub
    simp only [List.length_nil] at hsub
    simp only [iconLoadedOf] at hsub
    rw [hsub]
    rfl

/- ## The restore records: start formula and slice positions -/

/-- Net length change contributed by a list of actionable matches. -/
def deltaSum : List (Match × List Char) → Int
  | [] => 0
  | (m, v) :: rest => ((v.length : Int) - (m.len : Int)) + deltaSum rest

/-- The `j`-th restore record in terms of the `j`-th actionable match:
its `start` is the match's original start plus the initial delta plus the
net delta of all actionable matches strictly before it. -/
theorem recordsOf_get (orig : Text) :
    ∀ (acts : List (Match × List Char)) (delta : Int) (j : Nat)
      (r : RestoreRecord) (a : Match × List Char),
      (recordsOf orig delta acts).get? j = some r → acts.get? j = some a →
      r.start = (a.1.start : Int) + delta + deltaSum (acts.take j) ∧
      r.len = a.2.length ∧ r.originalText = a.1.raw ∧
      r.originalFont = capturedFontOf orig a.1 := by
  intro acts
  induction acts with
  | nil => intro delta j r a hr _; simp [recordsOf] at hr
  | cons p rest ih =>
    intro delta j r a hr ha
    match p with
    | (m, v) =>
      match j with
      | 0 =>
        simp only [recordsOf, List.get?] at hr ha
        injection hr with hr
        injection ha with ha
        subst hr; subst ha
        simp [recFor, List.take, deltaSum]
      | j + 1 =>
        simp only [recordsOf, List.get?] at hr ha
        have := ih (delta + ((v.length : Int) - (m.len : Int))) j r a hr ha
        refine ⟨?_, this.2⟩
        rw [this.1]
        simp only [List.take_succ_cons, deltaSum]
        omega

/- ## Restoration: sort, splice, right-to-left application -/

/-- Well-formedness of restore records over a text of length `endB`,
from base `base`: non-negative, in order, non-overlapping, in bounds,
each carrying a captured font. -/
def RecsWF : Nat → Nat → List RestoreRecord → Prop
  | _, _, [] => True
  | base, endB, r :: rest =>
    (base : Int) ≤ r.start ∧ r.start.toNat + r.len ≤ endB ∧
    (∃ f, r.originalFont = some f) ∧
    RecsWF (r.start.toNat + r.len) endB rest

/-- Destructuring view of `RecsWF` on a cons. -/
theorem RecsWF_cons {base endB : Nat} {r : RestoreRecord}
    {rest : List RestoreRecord} :
    RecsWF base endB (r :: rest) ↔
      (base : Int) ≤ r.start ∧ r.start.toNat + r.len ≤ endB ∧
      (∃ f, r.originalFont = some f) ∧
      RecsWF (r.start.toNat + r.len) endB rest :=
  Iff.rfl

/-- One restore step applied to a text split exactly around the resolved
value replaces it by the placeholder styled with the captured font. -/
theorem restoreStep_eq (r : RestoreRecord) (A P B : Text) (f : Font)
    (hA : A.length = r.start.toNat) (hP : P.length = r.len)
    (hf : r.originalFont = some f) :
    restoreStep (A ++ P ++ B) r =
      A ++ r.originalText.map (fun c => ({ ch := c, font := f } : SChar)) ++ B := by
  simp only [restoreStep, hf]
  have hassoc : A ++ P ++ B = A ++ (P ++ B) := List.append_assoc A P B
  rw [hassoc, insertChars_eq A (P ++ B) r.start.toNat r.originalText hA]
  set inh := inheritFont (A ++ (P ++ B)) r.start.toNat with hinh
  set sInh := r.originalText.map (fun c => ({ ch := c, font := inh } : SChar)) with hsInh
  have hset : setFontRange (A ++ sInh ++ (P ++ B)) r.start.toNat
      (r.start.toNat + r.originalText.length) f =
      A ++ sInh.map (fun sc => { sc with font := f }) ++ (P ++ B) :=
    setFontRange_eq A sInh (P ++ B) _ _ _ hA
      (by rw [hsInh, List.length_map])
  rw [hset]
  have hmap : sInh.map (fun sc => { sc with font := f }) =
      r.originalText.map (fun c => ({ ch := c, font := f } : SChar)) := by
    rw [hsInh, List.map_map]
    rfl
  rw [hmap]
  set s2 := r.originalText.map (fun c => ({ ch := c, font := f } : SChar)) with hs2
  have hform : A ++ s2 ++ (P ++ B) = (A ++ s2) ++ P ++ B := by
    simp [List.append_assoc]
  rw [hform, deleteRange_eq (A ++ s2) P B
    (r.start.toNat + r.originalText.length)
    (r.start.toNat + r.originalText.length + r.len)
    (by rw [List.length_append, hA, hs2, List.length_map])
    (by omega)]

theorem insertByStartDesc_of_lt (r : RestoreRecord) :
    ∀ (l : List RestoreRecord), (∀ x ∈ l, r.start < x.start) →
      insertByStartDesc r l = l ++ [r] := by
  intro l
  induction l with
  | nil => intro _; rfl
  | cons x xs ih =>
    intro hall
    have hx : r.start < x.start := hall x (by simp)
    simp only [insertByStartDesc]
    rw [if_neg (by omega)]
    rw [ih (fun y hy => hall y (by simp [hy]))]
    simp

/-- On records with strictly increasing starts the stable descending
sort is exactly the reverse. -/
theorem sortDescByStart_of_sorted :
    ∀ (l : List RestoreRecord),
      List.Pairwise (fun a b => a.start < b.start) l →
      sortDescByStart l = l.reverse := by
  intro l
  induction l with
  | nil => intro _; rfl
  | cons r xs ih =>
    intro hp
    have hall : ∀ x ∈ xs, r.start < x.start := fun x hx =>
      (List.pairwise_cons.mp hp).1 x hx
    have hxs : List.Pairwise (fun a b => a.start < b.start) xs :=
      (List.pairwise_cons.mp hp).2
    simp only [sortDescByStart]
    rw [ih hxs, insertByStartDesc_of_lt r xs.reverse
      (fun x hx => hall x (List.mem_reverse.mp hx)), List.reverse_cons]

/-- What the right-to-left record application produces, described
left-to-right: each record replaces the `len` characters at its `start`
by its placeholder text styled with its captured font. -/
def restoreFrom : Nat → List RestoreRecord → Text → Text
  | _, [], suffix => suffix
  | base, r :: rest, suffix =>
    suffix.take (r.start.toNat - base) ++
      r.originalText.map
        (fun c => ({ ch := c, font := r.originalFont.getD defaultFont } : SChar)) ++
      restoreFrom (r.start.toNat + r.len) rest
        (suffix.drop (r.start.toNat - base + r.len))

/-- Right-to-left application of well-formed records equals the
left-to-right splice `restoreFrom`. -/
theorem foldrRestore_eq :
    ∀ (recs : List RestoreRecord) (pre suffix : Text),
      RecsWF pre.length (pre ++ suffix).length recs →
      recs.foldr (fun r c => restoreStep c r) (pre ++ suffix) =
        pre ++ restoreFrom pre.length recs suffix := by
  intro recs
  induction recs with
  | nil => intro pre suffix _; rfl
  | cons r rest ih =>
    intro pre suffix hwf
    obtain ⟨h1, h2, ⟨f, hf⟩, h4⟩ := RecsWF_cons.mp hwf
    rw [List.length_append] at h2
    have h1n : pre.length ≤ r.start.toNat := by omega
    have hchunklen : (suffix.take (r.start.toNat + r.len - pre.length)).length
        = r.start.toNat + r.len - pre.length := by
      rw [List.length_take]; omega
    have hprelen : (pre ++ suffix.take (r.start.toNat + r.len - pre.length)).length
        = r.start.toNat + r.len := by
      rw [List.length_append, hchunklen]; omega
    have hsame : pre ++ suffix = (pre ++ suffix.take (r.start.toNat + r.len - pre.length)) ++
        suffix.drop (r.start.toNat + r.len - pre.length) := by
      rw [List.append_assoc, List.take_append_drop]
    have hwf2 : RecsWF
        ((pre ++ suffix.take (r.start.toNat + r.len - pre.length)).length)
        ((pre ++ suffix).length) rest := by
      rw [hprelen]
      rw [hsame] at h4 ⊢
      exact h4
    rw [hsame] at hwf2
    have IH := ih (pre ++ suffix.take (r.start.toNat + r.len - pre.length))
      (suffix.drop (r.start.toNat + r.len - pre.length)) hwf2
    rw [hprelen] at IH
    simp only [List.foldr_cons]
    rw [← hsame] at IH
    rw [IH]
    have hk : r.start.toNat + r.len - pre.length
        = (r.start.toNat - pre.length) + r.len := by omega
    have hsplit : suffix.take (r.start.toNat + r.len - pre.length)
        = suffix.take (r.start.toNat - pre.length)
          ++ (suffix.drop (r.start.toNat - pre.length)).take r.len := by
      rw [hk, List.take_add]
    have hc1len : (suffix.take (r.start.toNat - pre.length)).length
        = r.start.toNat - pre.length := by
      rw [List.length_take]; omega
    have hphlen : ((suffix.drop (r.start.toNat - pre.length)).take r.len).length
        = r.len := by
      rw [List.length_take, List.length_drop]; omega
    have hA : (pre ++ suffix.take (r.start.toNat - pre.length)).length
        = r.start.toNat := by
      rw [List.length_append, hc1len]; omega
    have hstep := restoreStep_eq r
      (pre ++ suffix.take (r.start.toNat - pre.length))
      ((suffix.drop (r.start.toNat - pre.length)).take r.len)
      (restoreFrom (r.start.toNat + r.len) rest
        (suffix.drop (r.start.toNat + r.len - pre.length)))
      f hA hphlen hf
    rw [hsplit, ← List.append_assoc pre (suffix.take (r.start.toNat - pre.length))
      ((suffix.drop (r.start.toNat - pre.length)).take r.len), hstep]
    simp only [restoreFrom, hf, Option.getD_some, List.append_assoc]
    rw [hk]

/- ## Uniformly styled spans -/

theorem drop_append_ge (pre suffix : List α) (n : Nat) (h : pre.length ≤ n) :
    (pre ++ suffix).drop n = suffix.drop (n - pre.length) := by
  rw [List.drop_append_eq_append_drop, List.drop_eq_nil_of_le h, List.nil_append]

theorem fontAtD_lt (l : Text) (i : Nat) (h : i < l.length) :
    fontAtD l i = l[i].font := by
  rw [fontAtD, List.get?_eq_getElem?, List.getElem?_eq_getElem h]

theorem eq_chars_map_of_uniform :
    ∀ (t : Text) (f : Font),
      (∀ (i : Nat) (h : i < t.length), t[i].font = f) →
      t = (chars t).map (fun c => ({ ch := c, font := f } : SChar)) := by
  intro t
  induction t with
  | nil => intro f _; rfl
  | cons sc rest ih =>
    intro f h
    have h0 : sc.font = f := h 0 (by simp)
    have hrest := ih f (fun i hi => h (i + 1) (by simpa using Nat.succ_lt_succ hi))
    cases sc with
    | mk ch ft =>
      simp only [chars, List.map_cons, List.cons.injEq]
      constructor
      · simp only at h0
        rw [h0]
      · rw [← chars]
        exact hrest

/-- A uniformly styled placeholder span of the original text equals its
raw characters re-styled with the captured (first character) font. -/
theorem span_eq_raw_map (orig : Text) (m : Match)
    (h2 : 0 < m.key.length) (h3 : m.len = m.key.length + 1)
    (h4 : m.start + m.len ≤ orig.length)
    (h6 : sliceAt (chars orig) m.start m.len = m.raw)
    (huni : ∀ j, j < m.len → fontAtD orig (m.start + j) = fontAtD orig m.start) :
    sliceAt orig m.start m.len
      = m.raw.map (fun c => ({ ch := c, font := fontAtD orig m.start } : SChar)) := by
  have hchars : chars (sliceAt orig m.start m.len) = m.raw := by
    rw [← h6, sliceAt, sliceAt, chars_take, chars_drop]
  have hlen : (sliceAt orig m.start m.len).length = m.len := by
    rw [sliceAt, List.length_take, List.length_drop]
    omega
  have huni2 : ∀ (i : Nat) (h : i < (sliceAt orig m.start m.len).length),
      (sliceAt orig m.start m.len)[i].font = fontAtD orig m.start := by
    intro i hi
    rw [hlen] at hi
    have hidx : m.start + i < orig.length := by omega
    have hi2 : i < (sliceAt orig m.start m.len).length := by rw [hlen]; omega
    have hgi : (sliceAt orig m.start m.len)[i] = orig[m.start + i] := by
      simp only [sliceAt]
      rw [List.getElem_take, List.getElem_drop]
    rw [hgi, ← fontAtD_lt orig (m.start + i) hidx]
    exact huni i hi
  rw [eq_chars_map_of_uniform (sliceAt orig m.start m.len) (fontAtD orig m.start) huni2,
    hchars]

/- ## Order facts about the actionable matches and their records -/

theorem actsOf_ge (env : Env) :
    ∀ (ms : List Match) (lo : Nat) (T : List Char), ScanWF T lo ms →
      ∀ a ∈ actsOf env ms, lo ≤ a.1.start := by
  intro ms
  induction ms with
  | nil => intro lo T _ a ha; simp [actsOf] at ha
  | cons m rest ih =>
    intro lo T hwf a ha
    obtain ⟨h1, _, _, _, _, _, h7⟩ := ScanWF_cons.mp hwf
    cases hres : resolveKey env m.key with
    | none =>
      rw [show actsOf env (m :: rest) = actsOf env rest by simp [actsOf, hres]] at ha
      have := ih (m.start + m.len) T h7 a ha
      omega
    | some v =>
      rw [show actsOf env (m :: rest) = (m, v) :: actsOf env rest by
        simp [actsOf, hres]] at ha
      cases ha with
      | head => exact h1
      | tail _ ha =>
        have := ih (m.start + m.len) T h7 a ha
        omega

theorem actsOf_chain (env : Env) :
    ∀ (ms : List Match) (lo : Nat) (T : List Char), ScanWF T lo ms →
      List.Chain' (fun (a b : Match × List Char) =>
        a.1.start + a.1.len ≤ b.1.start) (actsOf env ms) := by
  intro ms
  induction ms with
  | nil => intro lo T _; simp [actsOf]
  | cons m rest ih =>
    intro lo T hwf
    obtain ⟨h1, _, _, _, _, _, h7⟩ := ScanWF_cons.mp hwf
    cases hres : resolveKey env m.key with
    | none =>
      rw [show actsOf env (m :: rest) = actsOf env rest by simp [actsOf, hres]]
      exact ih (m.start + m.len) T h7
    | some v =>
      rw [show actsOf env (m :: rest) = (m, v) :: actsOf env rest by
        simp [actsOf, hres]]
      rw [List.chain'_cons']
      refine ⟨?_, ih (m.start + m.len) T h7⟩
      intro b hb
      exact actsOf_ge env rest (m.start + m.len) T h7 b (List.mem_of_mem_head? hb)

/-- Separation hypothesis: no actionable match both resolves to the
empty string and touches the next actionable match. -/
def SepOK (acts : List (Match × List Char)) : Prop :=
  List.Chain' (fun (a b : Match × List Char) =>
    a.2 ≠ [] ∨ a.1.start + a.1.len < b.1.start) acts

def sepOkB : List (Match × List Char) → Bool
  | [] => true
  | [_] => true
  | a :: b :: rest =>
      (decide (a.2 ≠ [] ∨ a.1.start + a.1.len < b.1.start)) && sepOkB (b :: rest)

theorem sepOkB_iff : ∀ acts, sepOkB acts = true ↔ SepOK acts
  | [] => by simp [sepOkB, SepOK]
  | [_] => by simp [sepOkB, SepOK]
  | a :: b :: rest => by
      rw [SepOK, List.chain'_cons, sepOkB, Bool.and_eq_true, decide_eq_true_iff]
      exact and_congr_right fun _ => sepOkB_iff (b :: rest)

instance : DecidablePred SepOK := fun acts =>
  decidable_of_decidable_of_iff (sepOkB_iff acts)

theorem records_chain (orig : Text) :
    ∀ (acts : List (Match × List Char)) (delta : Int),
      List.Chain' (fun (a b : Match × List Char) =>
        a.1.start + a.1.len ≤ b.1.start) acts →
      SepOK acts →
      List.Chain' (fun (r s : RestoreRecord) => r.start < s.start)
        (recordsOf orig delta acts) := by
  intro acts
  induction acts with
  | nil => intro delta _ _; simp [recordsOf]
  | cons a rest ih =>
    intro delta horder hsep
    match a with
    | (m, v) =>
      cases rest with
      | nil => simp [recordsOf, List.chain'_singleton]
      | cons b rest2 =>
        match b with
        | (m2, v2) =>
          rw [List.chain'_cons] at horder
          have hsep2 : ((m, v).2 ≠ [] ∨
              (m, v).1.start + (m, v).1.len < (m2, v2).1.start) ∧
              SepOK ((m2, v2) :: rest2) := List.chain'_cons.mp hsep
          have IH := ih (delta + ((v.length : Int) - (m.len : Int)))
            horder.2 hsep2.2
          simp only [recordsOf] at IH ⊢
          rw [List.chain'_cons]
          refine ⟨?_, IH⟩
          show (m.start : Int) + delta
              < (m2.start : Int) + (delta + ((v.length : Int) - (m.len : Int)))
          have ho : m.start + m.len ≤ m2.start := horder.1
          have hs : v ≠ [] ∨ m.start + m.len < m2.start := hsep2.1
          cases hs with
          | inl h =>
            have hvp : 0 < v.length := by
              cases v with
              | nil => exact absurd rfl h
              | cons _ _ => simp
            omega
          | inr h => omega

theorem records_pairwise (orig : Text) (acts : List (Match × List Char))
    (delta : Int)
    (horder : List.Chain' (fun (a b : Match × List Char) =>
      a.1.start + a.1.len ≤ b.1.start) acts)
    (hsep : SepOK acts) :
    List.Pairwise (fun (r s : RestoreRecord) => r.start < s.start)
      (recordsOf orig delta acts) := by
  haveI : IsTrans RestoreRecord (fun r s => r.start < s.start) :=
    ⟨fun _ _ _ h1 h2 => lt_trans h1 h2⟩
  exact List.chain'_iff_pairwise.mp (records_chain orig acts delta horder hsep)

/- ## Round trip: restoring the records over the substituted text -/

/-- Core of the round trip, by induction over the matches.  When every
key resolves and every placeholder span is uniformly styled, the records
are well-formed over the substituted text, and splicing them back yields
exactly the original (styled) suffix. -/
theorem roundtrip_core (env : Env) (loaded : Bool) (orig : Text) :
    ∀ (ms : List Match) (pre suffix preOut : Text) (delta : Int),
      orig = pre ++ suffix →
      ScanWF (chars orig) pre.length ms →
      delta = (preOut.length : Int) - (pre.length : Int) →
      (∀ m ∈ ms, (resolveKey env m.key).isSome = true) →
      (∀ m ∈ ms, ∀ j, j < m.len →
        fontAtD orig (m.start + j) = fontAtD orig m.start) →
      RecsWF preOut.length
          (preOut ++ substFrom env loaded orig pre.length ms suffix).length
          (recordsOf orig delta (actsOf env ms)) ∧
      restoreFrom preOut.length (recordsOf orig delta (actsOf env ms))
          (substFrom env loaded orig pre.length ms suffix) = suffix := by
  intro ms
  induction ms with
  | nil =>
    intro pre suffix preOut delta _ _ _ _ _
    exact ⟨trivial, rfl⟩
  | cons m rest ih =>
    intro pre suffix preOut delta horig hwf hdelta hall huni
    obtain ⟨h1, h2, h3, h4, h5, h6, h7⟩ := ScanWF_cons.mp hwf
    rw [length_chars, horig, List.length_append] at h4
    have hsome := hall m (by simp)
    obtain ⟨v, hres⟩ : ∃ v, resolveKey env m.key = some v := by
      cases hx : resolveKey env m.key with
      | none => rw [hx] at hsome; simp at hsome
      | some v => exact ⟨v, rfl⟩
    have hacts : actsOf env (m :: rest) = (m, v) :: actsOf env rest := by
      simp [actsOf, hres]
    rw [hacts]
    simp only [substFrom, hres, recordsOf]
    -- captured font
    have hstartlt : m.start < orig.length := by
      rw [horig, List.length_append]; omega
    have hcap : capturedFontOf orig m = some (fontAtD orig m.start) := by
      simp [capturedFontOf, hstartlt]
    -- length bookkeeping
    have hc1len : (suffix.take (m.start - pre.length)).length
        = m.start - pre.length := by
      rw [List.length_take]; omega
    have hvlen : (v.map (fun c =>
        ({ ch := c, font := valFont env loaded orig m } : SChar))).length
        = v.length := List.length_map ..
    have hchunklen : (suffix.take (m.start + m.len - pre.length)).length
        = m.start + m.len - pre.length := by
      rw [List.length_take]; omega
    have hprelen : (pre ++ suffix.take (m.start + m.len - pre.length)).length
        = m.start + m.len := by
      rw [List.length_append, hchunklen]; omega
    have horig2 : orig = (pre ++ suffix.take (m.start + m.len - pre.length)) ++
        suffix.drop (m.start + m.len - pre.length) := by
      rw [horig, List.append_assoc, List.take_append_drop]
    have hwf2 : ScanWF (chars orig)
        ((pre ++ suffix.take (m.start + m.len - pre.length)).length) rest := by
      rw [hprelen]; exact h7
    -- the new output prefix
    have hpreOutlen :
        (preOut ++ suffix.take (m.start - pre.length)
          ++ v.map (fun c =>
            ({ ch := c, font := valFont env loaded orig m } : SChar))).length
        = preOut.length + (m.start - pre.length) + v.length := by
      rw [List.length_append, List.length_append, hc1len, hvlen]
    have hdelta2 : delta + ((v.length : Int) - (m.len : Int)) =
        (((preOut ++ suffix.take (m.start - pre.length)
          ++ v.map (fun c =>
            ({ ch := c, font := valFont env loaded orig m } : SChar))).length : Int)
        - ((pre ++ suffix.take (m.start + m.len - pre.length)).length : Int)) := by
      rw [hpreOutlen, hprelen]
      omega
    have IH := ih (pre ++ suffix.take (m.start + m.len - pre.length))
      (suffix.drop (m.start + m.len - pre.length))
      (preOut ++ suffix.take (m.start - pre.length)
        ++ v.map (fun c => ({ ch := c, font := valFont env loaded orig m } : SChar)))
      (delta + ((v.length : Int) - (m.len : Int)))
      horig2 hwf2 hdelta2
      (fun m1 hm1 => hall m1 (by simp [hm1]))
      (fun m1 hm1 => huni m1 (by simp [hm1]))
    rw [hprelen, hpreOutlen] at IH
    -- record start arithmetic
    have hrstart : (recFor orig delta m v).start = (m.start : Int) + delta := rfl
    have hrtoNat : (recFor orig delta m v).start.toNat
        = preOut.length + (m.start - pre.length) := by
      rw [hrstart, hdelta]
      omega
    have hrlen : (recFor orig delta m v).len = v.length := rfl
    -- output total length
    have hOlen : (preOut ++ (suffix.take (m.start - pre.length)
        ++ v.map (fun c => ({ ch := c, font := valFont env loaded orig m } : SChar))
        ++ substFrom env loaded orig (m.start + m.len) rest
          (suffix.drop (m.start + m.len - pre.length)))).length
        = preOut.length + (m.start - pre.length) + v.length
          + (substFrom env loaded orig (m.start + m.len) rest
            (suffix.drop (m.start + m.len - pre.length))).length := by
      simp only [List.length_append, hc1len, hvlen]
      omega
    -- IH output length is the same
    have hOlen2 : (preOut ++ suffix.take (m.start - pre.length)
        ++ v.map (fun c => ({ ch := c, font := valFont env loaded orig m } : SChar))
        ++ substFrom env loaded orig (m.start + m.len) rest
          (suffix.drop (m.start + m.len - pre.length))).length
        = preOut.length + (m.start - pre.length) + v.length
          + (substFrom env loaded orig (m.start + m.len) rest
            (suffix.drop (m.start + m.len - pre.length))).length := by
      simp only [List.length_append, hc1len, hvlen]
    constructor
    · -- well-formedness of the records over the output
      rw [RecsWF_cons]
      refine ⟨?_, ?_, ⟨fontAtD orig m.start, by rw [show (recFor orig delta m v).originalFont = capturedFontOf orig m from rfl, hcap]⟩, ?_⟩
      · rw [hrstart, hdelta]
        omega
      · rw [hrtoNat, hrlen, hOlen]
        omega
      · rw [hrtoNat, hrlen, hOlen]
        have hwfrec := IH.1
        rw [hOlen2] at hwfrec
        exact hwfrec
    · -- splicing the records back restores the suffix
      simp only [restoreFrom]
      rw [show (recFor orig delta m v).originalFont = capturedFontOf orig m from rfl,
        hcap]
      simp only [Option.getD_some]
      rw [hrtoNat, hrlen]
      have htk : preOut.length + (m.start - pre.length) - preOut.length
          = m.start - pre.length := by omega
      rw [htk]
      -- the take picks out the gap
      have htake : (suffix.take (m.start - pre.length)
          ++ v.map (fun c => ({ ch := c, font := valFont env loaded orig m } : SChar))
          ++ substFrom env loaded orig (m.start + m.len) rest
            (suffix.drop (m.start + m.len - pre.length))).take (m.start - pre.length)
          = suffix.take (m.start - pre.length) := by
        rw [List.append_assoc]
        exact List.take_left' hc1len
      -- the drop reaches the tail splice
      have hdrop : (suffix.take (m.start - pre.length)
          ++ v.map (fun c => ({ ch := c, font := valFont env loaded orig m } : SChar))
          ++ substFrom env loaded orig (m.start + m.len) rest
            (suffix.drop (m.start + m.len - pre.length))).drop
            (m.start - pre.length + v.length)
          = substFrom env loaded orig (m.start + m.len) rest
            (suffix.drop (m.start + m.len - pre.length)) := by
        apply List.drop_left'
        rw [List.length_append, hc1len, hvlen]
      rw [htake, hdrop]
      rw [IH.2]
      -- reassemble the original suffix
      have hraw : (recFor orig delta m v).originalText = m.raw := rfl
      rw [hraw]
      have horiglen : orig.length = pre.length + suffix.length := by
        rw [horig, List.length_append]
      have hspan := span_eq_raw_map orig m h2 h3 (by omega) h6
        (huni m (by simp))
      rw [← hspan]
      have hslice : sliceAt orig m.start m.len
          = (suffix.drop (m.start - pre.length)).take m.len := by
        rw [sliceAt, horig, drop_append_ge pre suffix m.start h1]
      rw [hslice]
      have hsplit : suffix.take (m.start - pre.length)
          ++ (suffix.drop (m.start - pre.length)).take m.len
          = suffix.take (m.start + m.len - pre.length) := by
        rw [show m.start + m.len - pre.length = (m.start - pre.length) + m.len by omega,
          List.take_add]
      rw [hsplit, List.take_append_drop]

/- ## Positions of the substituted values and of the untouched matches -/

/-- Each persisted record points at its resolved value inside the
substituted text: the `len` characters at `start` are the value, styled
with `valFont`. -/
theorem records_slice (env : Env) (loaded : Bool) (orig : Text) :
    ∀ (ms : List Match) (pre suffix preOut : Text) (delta : Int),
      orig = pre ++ suffix →
      ScanWF (chars orig) pre.length ms →
      delta = (preOut.length : Int) - (pre.length : Int) →
      ∀ (j : Nat) (r : RestoreRecord) (a : Match × List Char),
        (recordsOf orig delta (actsOf env ms)).get? j = some r →
        (actsOf env ms).get? j = some a →
        sliceAt (preOut ++ substFrom env loaded orig pre.length ms suffix)
            r.start.toNat r.len
          = a.2.map (fun c => ({ ch := c, font := valFont env loaded orig a.1 } : SChar)) := by
  intro ms
  induction ms with
  | nil =>
    intro pre suffix preOut delta _ _ _ j r a hr _
    simp [actsOf, recordsOf] at hr
  | cons m rest ih =>
    intro pre suffix preOut delta horig hwf hdelta j r a hr ha
    obtain ⟨h1, h2, h3, h4, h5, h6, h7⟩ := ScanWF_cons.mp hwf
    rw [length_chars, horig, List.length_append] at h4
    have hchunklen : (suffix.take (m.start + m.len - pre.length)).length
        = m.start + m.len - pre.length := by
      rw [List.length_take]; omega
    have hprelen : (pre ++ suffix.take (m.start + m.len - pre.length)).length
        = m.start + m.len := by
      rw [List.length_append, hchunklen]; omega
    have horig2 : orig = (pre ++ suffix.take (m.start + m.len - pre.length)) ++
        suffix.drop (m.start + m.len - pre.length) := by
      rw [horig, List.append_assoc, List.take_append_drop]
    have hwf2 : ScanWF (chars orig)
        ((pre ++ suffix.take (m.start + m.len - pre.length)).length) rest := by
      rw [hprelen]; exact h7
    cases hres : resolveKey env m.key with
    | none =>
      have hacts : actsOf env (m :: rest) = actsOf env rest := by
        simp [actsOf, hres]
      rw [hacts] at hr ha
      simp only [substFrom, hres]
      have hdelta2 : delta =
          (((preOut ++ suffix.take (m.start + m.len - pre.length)).length : Int)
          - ((pre ++ suffix.take (m.start + m.len - pre.length)).length : Int)) := by
        rw [List.length_append, List.length_append, hchunklen]
        omega
      have IH := ih (pre ++ suffix.take (m.start + m.len - pre.length))
        (suffix.drop (m.start + m.len - pre.length))
        (preOut ++ suffix.take (m.start + m.len - pre.length))
        delta horig2 hwf2 hdelta2 j r a hr ha
      rw [hprelen] at IH
      rw [← List.append_assoc]
      exact IH
    | some v =>
      have hacts : actsOf env (m :: rest) = (m, v) :: actsOf env rest := by
        simp [actsOf, hres]
      rw [hacts] at hr ha
      simp only [substFrom, hres]
      have hc1len : (suffix.take (m.start - pre.length)).length
          = m.start - pre.length := by
        rw [List.length_take]; omega
      have hvlen : (v.map (fun c =>
          ({ ch := c, font := valFont env loaded orig m } : SChar))).length
          = v.length := List.length_map ..
      match j with
      | 0 =>
        simp only [recordsOf, List.get?] at hr ha
        injection hr with hr
        injection ha with ha
        subst hr; subst ha
        have hrtoNat : (recFor orig delta m v).start.toNat
            = (preOut ++ suffix.take (m.start - pre.length)).length := by
          show ((m.start : Int) + delta).toNat = _
          rw [hdelta, List.length_append, hc1len]
          omega
        have hform : preOut ++ (suffix.take (m.start - pre.length)
            ++ v.map (fun c => ({ ch := c, font := valFont env loaded orig m } : SChar))
            ++ substFrom env loaded orig (m.start + m.len) rest
              (suffix.drop (m.start + m.len - pre.length)))
            = (preOut ++ suffix.take (m.start - pre.length))
              ++ v.map (fun c => ({ ch := c, font := valFont env loaded orig m } : SChar))
              ++ substFrom env loaded orig (m.start + m.len) rest
                (suffix.drop (m.start + m.len - pre.length)) := by
          simp [List.append_assoc]
        rw [hform]
        exact sliceAt_append_mid _ _ _ _ _ hrtoNat (by rw [hvlen]; rfl)
      | j + 1 =>
        simp only [recordsOf, List.get?] at hr ha
        have hpreOutlen :
            (preOut ++ suffix.take (m.start - pre.length)
              ++ v.map (fun c =>
                ({ ch := c, font := valFont env loaded orig m } : SChar))).length
            = preOut.length + (m.start - pre.length) + v.length := by
          rw [List.length_append, List.length_append, hc1len, hvlen]
        have hdelta2 : delta + ((v.length : Int) - (m.len : Int)) =
            (((preOut ++ suffix.take (m.start - pre.length)
              ++ v.map (fun c =>
                ({ ch := c, font := valFont env loaded orig m } : SChar))).length : Int)
            - ((pre ++ suffix.take (m.start + m.len - pre.length)).length : Int)) := by
          rw [hpreOutlen, hprelen]
          omega
        have IH := ih (pre ++ suffix.take (m.start + m.len - pre.length))
          (suffix.drop (m.start + m.len - pre.length))
          (preOut ++ suffix.take (m.start - pre.length)
            ++ v.map (fun c => ({ ch := c, font := valFont env loaded orig m } : SChar)))
          (delta + ((v.length : Int) - (m.len : Int)))
          horig2 hwf2 hdelta2 j r a hr ha
        rw [hprelen] at IH
        have hform : (preOut ++ suffix.take (m.start - pre.length)
            ++ v.map (fun c => ({ ch := c, font := valFont env loaded orig m } : SChar)))
            ++ substFrom env loaded orig (m.start + m.len) rest
              (suffix.drop (m.start + m.len - pre.length))
            = preOut ++ (suffix.take (m.start - pre.length)
              ++ v.map (fun c => ({ ch := c, font := valFont env loaded orig m } : SChar))
              ++ substFrom env loaded orig (m.start + m.len) rest
                (suffix.drop (m.start + m.len - pre.length))) := by
          simp [List.append_assoc]
        rw [hform] at IH
        exact IH

/-- Net length delta contributed by the actionable matches of a list. -/
def deltaAt (env : Env) : List Match → Int
  | [] => 0
  | m :: rest =>
    match resolveKey env m.key with
    | none => deltaAt env rest
    | some v => ((v.length : Int) - (m.len : Int)) + deltaAt env rest

/-- An unresolved match is left in place character for character (with
its styling): the substituted text still carries the original span at
the shifted position. -/
theorem unres_slice (env : Env) (loaded : Bool) (orig : Text) :
    ∀ (ms : List Match) (pre suffix preOut : Text) (delta : Int),
      orig = pre ++ suffix →
      ScanWF (chars orig) pre.length ms →
      delta = (preOut.length : Int) - (pre.length : Int) →
      ∀ (j : Nat) (m1 : Match), ms.get? j = some m1 →
        resolveKey env m1.key = none →
        0 ≤ (m1.start : Int) + delta + deltaAt env (ms.take j) ∧
        sliceAt (preOut ++ substFrom env loaded orig pre.length ms suffix)
            (((m1.start : Int) + delta + deltaAt env (ms.take j)).toNat) m1.len
          = sliceAt orig m1.start m1.len := by
  intro ms
  induction ms with
  | nil =>
    intro pre suffix preOut delta _ _ _ j m1 hj _
    simp at hj
  | cons m rest ih =>
    intro pre suffix preOut delta horig hwf hdelta j m1 hj hunres
    obtain ⟨h1, h2, h3, h4, h5, h6, h7⟩ := ScanWF_cons.mp hwf
    rw [length_chars, horig, List.length_append] at h4
    have hchunklen : (suffix.take (m.start + m.len - pre.length)).length
        = m.start + m.len - pre.length := by
      rw [List.length_take]; omega
    have hprelen : (pre ++ suffix.take (m.start + m.len - pre.length)).length
        = m.start + m.len := by
      rw [List.length_append, hchunklen]; omega
    have horig2 : orig = (pre ++ suffix.take (m.start + m.len - pre.length)) ++
        suffix.drop (m.start + m.len - pre.length) := by
      rw [horig, List.append_assoc, List.take_append_drop]
    have hwf2 : ScanWF (chars orig)
        ((pre ++ suffix.take (m.start + m.len - pre.length)).length) rest := by
      rw [hprelen]; exact h7
    have hc1len : (suffix.take (m.start - pre.length)).length
        = m.start - pre.length := by
      rw [List.length_take]; omega
    have hslice0 : sliceAt orig m.start m.len
        = (suffix.drop (m.start - pre.length)).take m.len := by
      rw [sliceAt, horig, drop_append_ge pre suffix m.start h1]
    have hsplitchunk : suffix.take (m.start + m.len - pre.length)
        = suffix.take (m.start - pre.length)
          ++ (suffix.drop (m.start - pre.length)).take m.len := by
      rw [show m.start + m.len - pre.length = (m.start - pre.length) + m.len by omega,
        List.take_add]
    cases hres : resolveKey env m.key with
    | none =>
      match j with
      | 0 =>
        injection hj with hj
        subst hj
        simp only [List.take_zero, deltaAt, Int.add_zero]
        constructor
        · omega
        · simp only [substFrom, hres]
          have htoNat : ((m.start : Int) + delta).toNat
              = (preOut ++ suffix.take (m.start - pre.length)).length := by
            rw [hdelta, List.length_append, hc1len]
            omega
          rw [hslice0, hsplitchunk]
          have hform : preOut ++ (suffix.take (m.start - pre.length)
              ++ (suffix.drop (m.start - pre.length)).take m.len
              ++ substFrom env loaded orig (m.start + m.len) rest
                (suffix.drop (m.start + m.len - pre.length)))
              = (preOut ++ suffix.take (m.start - pre.length))
                ++ (suffix.drop (m.start - pre.length)).take m.len
                ++ substFrom env loaded orig (m.start + m.len) rest
                  (suffix.drop (m.start + m.len - pre.length)) := by
            simp [List.append_assoc]
          rw [hform]
          exact sliceAt_append_mid _ _ _ _ _ htoNat
            (by rw [List.length_take, List.length_drop]; omega)
      | j + 1 =>
        simp only [List.get?] at hj
        simp only [List.take_succ_cons, deltaAt, hres]
        simp only [substFrom, hres]
        have hdelta2 : delta =
            (((preOut ++ suffix.take (m.start + m.len - pre.length)).length : Int)
            - ((pre ++ suffix.take (m.start + m.len - pre.length)).length : Int)) := by
          rw [List.length_append, List.length_append, hchunklen]
          omega
        have IH := ih (pre ++ suffix.take (m.start + m.len - pre.length))
          (suffix.drop (m.start + m.len - pre.length))
          (preOut ++ suffix.take (m.start + m.len - pre.length))
          delta horig2 hwf2 hdelta2 j m1 hj hunres
        rw [hprelen] at IH
        rw [← List.append_assoc]
        exact IH
    | some v =>
      match j with
      | 0 =>
        injection hj with hj
        subst hj
        rw [hres] at hunres
        exact absurd hunres (by simp)
      | j + 1 =>
        simp only [List.get?] at hj
        simp only [List.take_succ_cons, deltaAt, hres]
        simp only [substFrom, hres]
        have hvlen : (v.map (fun c =>
            ({ ch := c, font := valFont env loaded orig m } : SChar))).length
            = v.length := List.length_map ..
        have hpreOutlen :
            (preOut ++ suffix.take (m.start - pre.length)
              ++ v.map (fun c =>
                ({ ch := c, font := valFont env loaded orig m } : SChar))).length
            = preOut.length + (m.start - pre.length) + v.length := by
          rw [List.length_append, List.length_append, hc1len, hvlen]
        have hdelta2 : delta + ((v.length : Int) - (m.len : Int)) =
            (((preOut ++ suffix.take (m.start - pre.length)
              ++ v.map (fun c =>
                ({ ch := c, font := valFont env loaded orig m } : SChar))).length : Int)
            - ((pre ++ suffix.take (m.start + m.len - pre.length)).length : Int)) := by
          rw [hpreOutlen, hprelen]
          omega
        have IH := ih (pre ++ suffix.take (m.start + m.len - pre.length))
          (suffix.drop (m.start + m.len - pre.length))
          (preOut ++ suffix.take (m.start - pre.length)
            ++ v.map (fun c => ({ ch := c, font := valFont env loaded orig m } : SChar)))
          (delta + ((v.length : Int) - (m.len : Int)))
          horig2 hwf2 hdelta2 j m1 hj hunres
        rw [hprelen] at IH
        have hform : (preOut ++ suffix.take (m.start - pre.length)
            ++ v.map (fun c => ({ ch := c, font := valFont env loaded orig m } : SChar)))
            ++ substFrom env loaded orig (m.start + m.len) rest
              (suffix.drop (m.start + m.len - pre.length))
            = preOut ++ (suffix.take (m.start - pre.length)
              ++ v.map (fun c => ({ ch := c, font := valFont env loaded orig m } : SChar))
              ++ substFrom env loaded orig (m.start + m.len) rest
                (suffix.drop (m.start + m.len - pre.length))) := by
          simp [List.append_assoc]
        rw [hform] at IH
        have harith : (m1.start : Int) + delta
            + (((v.length : Int) - (m.len : Int)) + deltaAt env (rest.take j))
            = (m1.start : Int) + (delta + ((v.length : Int) - (m.len : Int)))
            + deltaAt env (rest.take j) := by
          omega
        rw [harith]
        exact IH

/- ## The snapshot map -/

theorem objGet_objSet (m : List (List Char × List Char)) (k1 v k : List Char) :
    objGet (objSet m k1 v) k = if k1 = k then some v else objGet m k := by
  induction m with
  | nil => simp only [objSet, objGet]
  | cons p rest ih =>
    obtain ⟨k2, v2⟩ := p
    by_cases h12 : k2 = k1
    · subst h12
      by_cases hk : k2 = k
      · simp [objSet, objGet, hk]
      · simp [objSet, objGet, hk]
    · by_cases hk : k1 = k
      · subst hk
        simp [objSet, objGet, h12, ih]
      · simp [objSet, objGet, h12, hk, ih]

theorem actsOf_good (env : Env) (ms : List Match) :
    ∀ a ∈ actsOf env ms, resolveKey env a.1.key = some a.2 := by
  intro a ha
  simp only [actsOf, List.mem_filterMap] at ha
  obtain ⟨m, hm, hmap⟩ := ha
  cases hx : resolveKey env m.key with
  | none => rw [hx] at hmap; exact Option.noConfusion hmap
  | some v =>
    rw [hx] at hmap
    injection hmap with hmap
    subst hmap
    exact hx

theorem mem_actsOf (env : Env) (ms : List Match) (m : Match) (v : List Char)
    (hm : m ∈ ms) (hres : resolveKey env m.key = some v) :
    (m, v) ∈ actsOf env ms := by
  simp only [actsOf, List.mem_filterMap]
  exact ⟨m, hm, by rw [hres]; rfl⟩

theorem objGet_snapOf_none (env : Env) :
    ∀ (acts : List (Match × List Char)) (snap : List (List Char × List Char))
      (k : List Char),
      (∀ a ∈ acts, resolveKey env a.1.key = some a.2) →
      resolveKey env k = none →
      objGet (snapOf acts snap) k = objGet snap k := by
  intro acts
  induction acts with
  | nil => intro snap k _ _; rfl
  | cons a rest ih =>
    intro snap k hgood hnone
    have hne : a.1.key ≠ k := by
      intro heq
      have hg := hgood a (by simp)
      rw [heq, hnone] at hg
      exact Option.noConfusion hg
    simp only [snapOf, List.foldl_cons]
    rw [show List.foldl (fun s a => objSet s a.1.key a.2)
        (objSet snap a.1.key a.2) rest
      = snapOf rest (objSet snap a.1.key a.2) from rfl]
    rw [ih (objSet snap a.1.key a.2) k (fun b hb => hgood b (by simp [hb])) hnone,
      objGet_objSet, if_neg hne]

theorem objGet_snapOf_pres (env : Env) :
    ∀ (acts : List (Match × List Char)) (snap : List (List Char × List Char))
      (k v : List Char),
      (∀ a ∈ acts, resolveKey env a.1.key = some a.2) →
      resolveKey env k = some v → objGet snap k = some v →
      objGet (snapOf acts snap) k = some v := by
  intro acts
  induction acts with
  | nil => intro snap k v _ _ hsnap; exact hsnap
  | cons a rest ih =>
    intro snap k v hgood hres hsnap
    simp only [snapOf, List.foldl_cons]
    rw [show List.foldl (fun s a => objSet s a.1.key a.2)
        (objSet snap a.1.key a.2) rest
      = snapOf rest (objSet snap a.1.key a.2) from rfl]
    apply ih (objSet snap a.1.key a.2) k v
      (fun b hb => hgood b (by simp [hb])) hres
    rw [objGet_objSet]
    by_cases heq : a.1.key = k
    · rw [if_pos heq]
      have hg := hgood a (by simp)
      rw [heq, hres] at hg
      injection hg with hg
      rw [hg]
    · rw [if_neg heq]
      exact hsnap

theorem objGet_snapOf_mem (env : Env) :
    ∀ (acts : List (Match × List Char)) (snap : List (List Char × List Char))
      (k v : List Char),
      (∀ a ∈ acts, resolveKey env a.1.key = some a.2) →
      resolveKey env k = some v →
      (∃ a ∈ acts, a.1.key = k) →
      objGet (snapOf acts snap) k = some v := by
  intro acts
  induction acts with
  | nil => intro snap k v _ _ hex; simp at hex
  | cons b rest ih =>
    intro snap k v hgood hres hex
    simp only [snapOf, List.foldl_cons]
    rw [show List.foldl (fun s a => objSet s a.1.key a.2)
        (objSet snap b.1.key b.2) rest
      = snapOf rest (objSet snap b.1.key b.2) from rfl]
    by_cases hbk : b.1.key = k
    · apply objGet_snapOf_pres env rest (objSet snap b.1.key b.2) k v
        (fun a ha => hgood a (by simp [ha])) hres
      rw [objGet_objSet, if_pos hbk]
      have hg := hgood b (by simp)
      rw [hbk, hres] at hg
      injection hg with hg
      rw [hg]
    · obtain ⟨a, ha, hak⟩ := hex
      cases ha with
      | head => exact absurd hak hbk
      | tail _ ha =>
        exact ih (objSet snap b.1.key b.2) k v
          (fun c hc => hgood c (by simp [hc])) hres ⟨a, ha, hak⟩

/- ## Character-level view and the legacy engine -/

/-- Character-level splice: the common content rewriting both engines
perform, ignoring styling. -/
def substChars (env : Env) : Nat → List Match → List Char → List Char
  | _, [], suffix => suffix
  | base, m :: rest, suffix =>
    match resolveKey env m.key with
    | none =>
      suffix.take (m.start + m.len - base) ++
        substChars env (m.start + m.len) rest (suffix.drop (m.start + m.len - base))
    | some v =>
      suffix.take (m.start - base) ++ v ++
        substChars env (m.start + m.len) rest (suffix.drop (m.start + m.len - base))

theorem chars_substFrom (env : Env) (loaded : Bool) (orig : Text) :
    ∀ (ms : List Match) (base : Nat) (suffix : Text),
      chars (substFrom env loaded orig base ms suffix)
        = substChars env base ms (chars suffix) := by
  intro ms
  induction ms with
  | nil => intro base suffix; rfl
  | cons m rest ih =>
    intro base suffix
    cases hres : resolveKey env m.key with
    | none =>
      simp only [substFrom, substChars, hres, chars_append, chars_take, chars_drop]
      rw [ih]
      rw [chars_drop]
    | some v =>
      simp only [substFrom, substChars, hres, chars_append, chars_take, chars_drop]
      rw [ih, chars_drop]
      have hv : chars (v.map (fun c =>
          ({ ch := c, font := valFont env loaded orig m } : SChar))) = v := by
        simp only [chars, List.map_map]
        have hcomp : (SChar.ch ∘ fun c =>
            ({ ch := c, font := valFont env loaded orig m } : SChar))
            = fun c => c := rfl
        rw [hcomp]
        exact List.map_id' v
      rw [hv]

theorem ScanWF_get_lo (T : List Char) :
    ∀ (ms : List Match) (lo j : Nat) (m1 : Match),
      ScanWF T lo ms → ms.get? j = some m1 → lo ≤ m1.start := by
  intro ms
  induction ms with
  | nil => intro lo j m1 _ hj; simp at hj
  | cons m rest ih =>
    intro lo j m1 hwf hj
    obtain ⟨h1, _, _, _, _, _, h7⟩ := ScanWF_cons.mp hwf
    match j with
    | 0 =>
      injection hj with hj
      subst hj
      exact h1
    | j + 1 =>
      simp only [List.get?] at hj
      have := ih (m.start + m.len) j m1 h7 hj
      omega

/-- Splice decomposition of the substitution at a resolved match: the
output characters are exactly the substitution of the text before the
match, then the resolved value, then the substitution of the text after
the match's end — the placeholder span itself is removed from the
output. -/
theorem substChars_split (env : Env) (T : List Char) :
    ∀ (ms : List Match) (base : Nat) (suffix : List Char),
      ScanWF T base ms →
      ∀ (j : Nat) (m1 : Match) (v : List Char),
        ms.get? j = some m1 → resolveKey env m1.key = some v →
        substChars env base ms suffix
          = substChars env base (ms.take j) (suffix.take (m1.start - base))
            ++ v
            ++ substChars env (m1.start + m1.len) (ms.drop (j + 1))
                (suffix.drop (m1.start + m1.len - base)) := by
  intro ms
  induction ms with
  | nil => intro base suffix _ j m1 v hj _; simp at hj
  | cons m rest ih =>
    intro base suffix hwf j m1 v hj hres1
    obtain ⟨h1, h2, h3, h4, h5, h6, h7⟩ := ScanWF_cons.mp hwf
    match j with
    | 0 =>
      injection hj with hj
      subst hj
      simp only [List.take_zero, List.drop_succ_cons, List.drop_zero,
        substChars, hres1]
    | j + 1 =>
      simp only [List.get?] at hj
      have hm1 : m.start + m.len ≤ m1.start :=
        ScanWF_get_lo T rest (m.start + m.len) j m1 h7 hj
      have hih := ih (m.start + m.len) (suffix.drop (m.start + m.len - base))
        h7 j m1 v hj hres1
      have htt : (suffix.take (m1.start - base)).take (m.start + m.len - base)
          = suffix.take (m.start + m.len - base) := by
        rw [List.take_take, min_eq_left (by omega)]
      have htt2 : (suffix.take (m1.start - base)).take (m.start - base)
          = suffix.take (m.start - base) := by
        rw [List.take_take, min_eq_left (by omega)]
      have htd : (suffix.take (m1.start - base)).drop (m.start + m.len - base)
          = (suffix.drop (m.start + m.len - base)).take
              (m1.start - (m.start + m.len)) := by
        rw [List.drop_take]
        congr 1
        omega
      have hdd : (suffix.drop (m.start + m.len - base)).drop
            (m1.start + m1.len - (m.start + m.len))
          = suffix.drop (m1.start + m1.len - base) := by
        rw [List.drop_drop]
        congr 1
        omega
      cases hres : resolveKey env m.key with
      | none =>
        simp only [substChars, hres, List.take_succ_cons, List.drop_succ_cons]
        rw [hih, htt, htd, hdd]
        simp [List.append_assoc]
      | some w =>
        simp only [substChars, hres, List.take_succ_cons, List.drop_succ_cons]
        rw [hih, htt2, htd, hdd]
        simp [List.append_assoc]

/-- The left-to-right rebuild loop of the legacy engine computes the
character-level splice (and the same snapshot map). -/
theorem buildOut2_eq (env : Env) (text : List Char) :
    ∀ (ms : List Match) (lastIndex : Nat) (out : List Char)
      (snap : List (List Char × List Char)),
      ScanWF text lastIndex ms →
      buildOut2 env text ms lastIndex out snap
        = (out ++ substChars env lastIndex ms (text.drop lastIndex),
           snapOf (actsOf env ms) snap) := by
  intro ms
  induction ms with
  | nil =>
    intro lastIndex out snap _
    simp [buildOut2, substChars, actsOf, snapOf]
  | cons m rest ih =>
    intro lastIndex out snap hwf
    obtain ⟨h1, h2, h3, h4, h5, h6, h7⟩ := ScanWF_cons.mp hwf
    have hdrop2 : (text.drop lastIndex).drop (m.start + m.len - lastIndex)
        = text.drop (m.start + m.len) := by
      rw [List.drop_drop]
      congr 1
      omega
    have hdrop1 : (text.drop lastIndex).drop (m.start - lastIndex)
        = text.drop m.start := by
      rw [List.drop_drop]
      congr 1
      omega
    simp only [buildOut2]
    cases hfind : findStringVariable env.vars m.key env.collectionId with
    | some vr =>
      simp only [hfind]
      rw [ih (m.start + m.len) (out ++ sliceAt text lastIndex (m.start - lastIndex)
          ++ resolveVariableValue vr true)
        (objSet snap m.key (resolveVariableValue vr true)) h7]
      have hres : resolveKey env m.key = some (resolveVariableValue vr true) := by
        simp [resolveKey, hfind]
      have hacts : actsOf env (m :: rest)
          = (m, resolveVariableValue vr true) :: actsOf env rest := by
        simp [actsOf, hres]
      rw [hacts]
      simp only [substChars, hres, snapOf, List.foldl_cons]
      rw [hdrop2]
      simp [sliceAt, List.append_assoc]
    | none =>
      simp only [hfind]
      rw [ih (m.start + m.len) (out ++ sliceAt text lastIndex (m.start - lastIndex)
          ++ sliceAt text m.start m.len) snap h7]
      have hres : resolveKey env m.key = none := by
        simp [resolveKey, hfind]
      have hacts : actsOf env (m :: rest) = actsOf env rest := by
        simp [actsOf, hres]
      rw [hacts]
      simp only [substChars, hres]
      rw [hdrop2]
      have hsplit : (text.drop lastIndex).take (m.start + m.len - lastIndex)
          = sliceAt text lastIndex (m.start - lastIndex) ++ sliceAt text m.start m.len := by
        rw [show m.start + m.len - lastIndex = (m.start - lastIndex) + m.len by omega,
          List.take_add, sliceAt, sliceAt, hdrop1]
      rw [hsplit]
      simp [List.append_assoc]

/-- The legacy engine with at least one scanner match: content becomes
the character-level splice, a legacy backup (no `replacements`) is
written, and the pass reports changed. -/
theorem replace2_scan (env : Env) (node : TextNode)
    (h : scanPlaceholders2 (chars node.content) ≠ []) :
    replacePlaceholdersInNode2 env node =
      { node :=
          { content := setCharacters node.content
              (substChars env 0 (scanPlaceholders2 (chars node.content))
                (chars node.content)),
            backup := some
              { original := chars node.content,
                snapshot := snapOf (actsOf env (scanPlaceholders2 (chars node.content))) [],
                collection := env.collectionName, replacements := none } },
        changed := true,
        snapshot := some (snapOf (actsOf env
          (scanPlaceholders2 (chars node.content))) []) } := by
  simp only [replacePlaceholdersInNode2]
  cases hx : scanPlaceholders2 (chars node.content) with
  | nil => exact absurd hx h
  | cons m rest =>
    simp only [List.isEmpty_cons, Bool.false_eq_true, if_false]
    have hwf : ScanWF (chars node.content) 0 (m :: rest) := by
      have h2 := scanPlaceholders2_wf (chars node.content)
      rw [hx] at h2
      exact h2
    rw [buildOut2_eq env (chars node.content) (m :: rest) 0 [] [] hwf]
    simp

theorem chars_setCharacters (old : Text) (s : List Char) :
    chars (setCharacters old s) = s := by
  simp only [chars, setCharacters, List.map_map]
  have hcomp : (SChar.ch ∘ fun c => ({ ch := c, font := fontAtD old 0 } : SChar))
      = fun c => c := rfl
  rw [hcomp]
  exact List.map_id' s

/- ## Remaining glue -/

theorem sliceAt_chars (t : Text) (s n : Nat) :
    sliceAt (chars t) s n = chars (sliceAt t s n) := by
  simp [sliceAt, chars_take, chars_drop]

theorem ScanWF_mem (T : List Char) :
    ∀ (ms : List Match) (lo : Nat), ScanWF T lo ms → ∀ m ∈ ms,
      0 < m.key.length ∧ m.len = m.key.length + 1 ∧ m.start + m.len ≤ T.length ∧
      m.raw = '@' :: m.key ∧ sliceAt T m.start m.len = m.raw := by
  intro ms
  induction ms with
  | nil => intro lo _ m hm; simp at hm
  | cons m0 rest ih =>
    intro lo hwf m hm
    obtain ⟨h1, h2, h3, h4, h5, h6, h7⟩ := ScanWF_cons.mp hwf
    cases hm with
    | head => exact ⟨h2, h3, h4, h5, h6⟩
    | tail _ hm => exact ih (m0.start + m0.len) h7 m hm

theorem actsOf_mem_ms (env : Env) (ms : List Match) :
    ∀ a ∈ actsOf env ms, a.1 ∈ ms := by
  intro a ha
  simp only [actsOf, List.mem_filterMap] at ha
  obtain ⟨m, hm, hmap⟩ := ha
  cases hx : resolveKey env m.key with
  | none => rw [hx] at hmap; exact Option.noConfusion hmap
  | some v =>
    rw [hx] at hmap
    injection hmap with hmap
    subst hmap
    exact hm

theorem restore_no_backup (node : TextNode) (h : node.backup = none) :
    restorePlaceholdersInNode node = { node := node, restored := false } := by
  simp [restorePlaceholdersInNode, h]

/-- The content after a pass is always the `substFrom` splice (identity
when nothing is actionable). -/
theorem replace_content_styled (env : Env) (node : TextNode) :
    (replacePlaceholdersInNode env node).node.content
      = substFrom env
          (iconLoadedOf env (actsOf env (scanPlaceholders (chars node.content))))
          node.content 0 (scanPlaceholders (chars node.content)) node.content := by
  by_cases h : actsOf env (scanPlaceholders (chars node.content)) = []
  · rw [replace_no_acts env node h]
    show node.content = _
    exact (substFrom_no_acts env
      (iconLoadedOf env (actsOf env (scanPlaceholders (chars node.content))))
      node.content (scanPlaceholders (chars node.content)) [] node.content
      (by simp) (scanPlaceholders_wf (chars node.content)) h).symm
  · rw [replace_acts env node h]

/-- C1 (amended): when every scanned key resolves, no empty-valued
actionable match is immediately followed by another actionable match,
and every placeholder span is uniformly styled, substituting and then
restoring yields back the original content exactly — characters and
per-character fonts. -/
theorem c1_amended_roundtrip (env : Env) (node : TextNode)
    (hall : ∀ m ∈ scanPlaceholders (chars node.content),
      (resolveKey env m.key).isSome = true)
    (hsep : SepOK (actsOf env (scanPlaceholders (chars node.content))))
    (huni : ∀ m ∈ scanPlaceholders (chars node.content), ∀ j, j < m.len →
      fontAtD node.content (m.start + j) = fontAtD node.content m.start) :
    (restorePlaceholdersInNode (replacePlaceholdersInNode env node).node).node.content
      = node.content := by
  by_cases hacts : actsOf env (scanPlaceholders (chars node.content)) = []
  · rw [replace_no_acts env node hacts, restore_no_backup _ rfl]
  · rw [replace_acts env node hacts]
    simp only [restorePlaceholdersInNode]
    have hwfscan : ScanWF (chars node.content) 0
        (scanPlaceholders (chars node.content)) :=
      scanPlaceholders_wf (chars node.content)
    have horder := actsOf_chain env (scanPlaceholders (chars node.content)) 0
      (chars node.content) hwfscan
    have hpair := records_pairwise node.content
      (actsOf env (scanPlaceholders (chars node.content))) 0 horder hsep
    rw [sortDescByStart_of_sorted _ hpair, List.foldl_reverse]
    have hcore := roundtrip_core env
      (iconLoadedOf env (actsOf env (scanPlaceholders (chars node.content))))
      node.content (scanPlaceholders (chars node.content)) [] node.content [] 0
      (by simp) hwfscan (by simp) hall huni
    have hfold := foldrRestore_eq
      (recordsOf node.content 0 (actsOf env (scanPlaceholders (chars node.content))))
      []
      (substFrom env
        (iconLoadedOf env (actsOf env (scanPlaceholders (chars node.content))))
        node.content 0 (scanPlaceholders (chars node.content)) node.content)
      hcore.1
    rw [List.nil_append, List.nil_append] at hfold
    show List.foldr _ _ _ = node.content
    rw [hfold]
    exact hcore.2

/- ## Concrete inputs for witnesses and counterexamples -/

/-- Text with a single font everywhere. -/
def mkText (s : List Char) (f : Font) : Text :=
  s.map (fun c => { ch := c, font := f })

def fontF : Font := { family := ['F'], style := ['R'] }

def fontG : Font := { family := ['G'], style := ['R'] }

/-- A STRING variable resolved through `valuesByMode` (no
consumer-specific resolution function). -/
def strVar (n v : List Char) : VariableRec :=
  { name := n, variableCollectionId := 0, resolveForConsumer := none,
    valuesByMode := [(['m'], v)] }

def envMain : Env :=
  { vars := [strVar ['a'] ['X', 'X', 'X', 'X'], strVar ['b', 'b'] ['Y'],
      strVar ['i', 'c', 'o', 'n', '/', 's'] ['S']],
    collectionId := 0, collectionName := ['K'],
    iconFontFamily := ['I'], iconFontStyle := [], iconLoadOk := true }

/- ## Claims -/

/-- C3: whenever a substitution pass finds zero scanner matches, or zero
matches remain actionable after the unresolved keys are filtered out
(`actsOf … = []` covers both), the pass clears any existing backup,
leaves the element's content unchanged, and reports `changed = false`. -/
theorem c3_no_change_clears_backup (env : Env) (node : TextNode)
    (h : actsOf env (scanPlaceholders (chars node.content)) = []) :
    (replacePlaceholdersInNode env node).changed = false ∧
    (replacePlaceholdersInNode env node).node.content = node.content ∧
    (replacePlaceholdersInNode env node).node.backup = none := by
  rw [replace_no_acts env node h]
  exact ⟨rfl, rfl, rfl⟩

def backupC3 : Backup :=
  { original := ['o'], snapshot := [], collection := ['K'],
    replacements := some [] }

def nodeC3 : TextNode :=
  { content := mkText ['@', 'q', ' ', 'x'] fontF, backup := some backupC3 }

theorem c3_witness :
    actsOf envMain (scanPlaceholders (chars nodeC3.content)) = [] ∧
    ((replacePlaceholdersInNode envMain nodeC3).changed = false ∧
     (replacePlaceholdersInNode envMain nodeC3).node.content = nodeC3.content ∧
     (replacePlaceholdersInNode envMain nodeC3).node.backup = none) :=
  ⟨by decide, c3_no_change_clears_backup envMain nodeC3 (by decide)⟩

/-- C10: a backup whose `replacements` field is an empty array takes the
record-driven path even when `original` is present: the content is left
unchanged, the backup is cleared, and the call reports `restored = true`. -/
theorem c10_empty_records_path (node : TextNode) (b : Backup)
    (h1 : node.backup = some b) (h2 : b.replacements = some []) :
    restorePlaceholdersInNode node =
      { node := { node with backup := none }, restored := true } := by
  simp only [restorePlaceholdersInNode, h1, h2]
  rfl

def backupC10 : Backup :=
  { original := ['o', 'l', 'd'], snapshot := [], collection := ['K'],
    replacements := some [] }

def nodeC10 : TextNode :=
  { content := mkText ['x', 'y'] fontF, backup := some backupC10 }

theorem c10_witness :
    nodeC10.backup = some backupC10 ∧ backupC10.replacements = some [] ∧
    backupC10.original ≠ [] ∧
    restorePlaceholdersInNode nodeC10 =
      { node := { nodeC10 with backup := none }, restored := true } :=
  ⟨rfl, rfl, by decide, c10_empty_records_path nodeC10 backupC10 rfl rfl⟩

/-- C6: a successful restoration clears the backup, so an immediately
repeated restore finds no backup, reports `restored = false` and leaves
the node untouched; restoring a node with no backup is likewise a no-op
reporting `restored = false`. -/
theorem c6_restore_one_shot (node : TextNode) :
    ((restorePlaceholdersInNode node).restored = true →
      (restorePlaceholdersInNode node).node.backup = none ∧
      restorePlaceholdersInNode (restorePlaceholdersInNode node).node
        = { node := (restorePlaceholdersInNode node).node, restored := false }) ∧
    (node.backup = none →
      restorePlaceholdersInNode node = { node := node, restored := false }) := by
  constructor
  · intro hres
    cases hb : node.backup with
    | none =>
      rw [restore_no_backup node hb] at hres
      exact absurd hres (by simp)
    | some b =>
      cases hrep : b.replacements with
      | some reps =>
        have hnode : (restorePlaceholdersInNode node).node.backup = none := by
          simp [restorePlaceholdersInNode, hb, hrep]
        exact ⟨hnode, restore_no_backup _ hnode⟩
      | none =>
        by_cases ho : b.original.isEmpty
        · exfalso
          simp [restorePlaceholdersInNode, hb, hrep, ho] at hres
        · have hnode : (restorePlaceholdersInNode node).node.backup = none := by
            simp [restorePlaceholdersInNode, hb, hrep, ho]
          exact ⟨hnode, restore_no_backup _ hnode⟩
  · exact restore_no_backup node

def recC6 : RestoreRecord :=
  { start := 0, len := 1, originalText := ['@', 'a'],
    originalFont := some fontF }

def backupC6 : Backup :=
  { original := ['@', 'a', ' ', 'q'], snapshot := [], collection := ['K'],
    replacements := some [recC6] }

def nodeC6 : TextNode :=
  { content := mkText ['X', ' ', 'q'] fontF, backup := some backupC6 }

theorem c6_witness :
    (restorePlaceholdersInNode nodeC6).restored = true ∧
    ((restorePlaceholdersInNode nodeC6).node.backup = none ∧
     restorePlaceholdersInNode (restorePlaceholdersInNode nodeC6).node
       = { node := (restorePlaceholdersInNode nodeC6).node, restored := false }) :=
  ⟨by decide, (c6_restore_one_shot nodeC6).1 (by decide)⟩

/-- C7 (amended): when the feature flag is on and the re-entrancy guard
is clear, the handler unconditionally sets `lastSelectedNodeId` to the
id of the single selected text node (or `none`); when the flag is off or
the guard is set, the handler returns early and the id is *not*
updated. -/
theorem c7_amended_update_guarded (env : Env) (st : PluginState)
    (sel : List Nat) (h1 : st.featureEnabled = true)
    (h2 : st.processing = false) :
    (handleSelectionChange env st sel).lastSelectedNodeId
      = newSelectedId st sel := by
  unfold handleSelectionChange
  rw [if_neg (by rw [h1]; simp), if_neg (by rw [h2]; simp)]

def envNil : Env :=
  { vars := [], collectionId := 0, collectionName := [],
    iconFontFamily := [], iconFontStyle := [], iconLoadOk := false }

def stOff : PluginState :=
  { featureEnabled := false, processing := false,
    lastSelectedNodeId := some 1, doc := [] }

/-- C7 counterexample: with the feature flag off the handler returns
before the update, so `lastSelectedNodeId` keeps its stale value instead
of the current selection's id (`none` here). -/
theorem c7_counterexample :
    (handleSelectionChange envNil stOff []).lastSelectedNodeId ≠
      newSelectedId stOff [] := by decide

def stOn : PluginState :=
  { featureEnabled := true, processing := false,
    lastSelectedNodeId := some 1,
    doc := [(2, { content := mkText ['h', 'i'] fontF, backup := none })] }

theorem c7_witness :
    stOn.featureEnabled = true ∧ stOn.processing = false ∧
    (handleSelectionChange envNil stOn [2]).lastSelectedNodeId
      = newSelectedId stOn [2] :=
  ⟨rfl, rfl, c7_amended_update_guarded envNil stOn [2] rfl rfl⟩

/-- C5 (amended): the resolve operation is total (every exception raised
inside consumer-specific resolution is caught), but an exception does
*not* yield the absent result: it yields the empty string, which is a
valid replacement — the key resolves to `""` and the placeholder is
replaced (removed), not left untouched. -/
theorem c5_amended_resolver (vr : VariableRec) (e : List Char)
    (h : vr.resolveForConsumer = some (Except.error e)) :
    resolveVariableValue vr true = [] ∧
    ∀ (env : Env) (k : List Char),
      findStringVariable env.vars k env.collectionId = some vr →
      resolveKey env k = some [] := by
  constructor
  · simp [resolveVariableValue, h]
  · intro env k hfind
    simp [resolveKey, hfind, resolveVariableValue, h]

def vErr : VariableRec :=
  { name := ['k'], variableCollectionId := 0,
    resolveForConsumer := some (Except.error ['b']), valuesByMode := [] }

def envErr : Env :=
  { vars := [vErr], collectionId := 0, collectionName := ['K'],
    iconFontFamily := [], iconFontStyle := [], iconLoadOk := false }

def nodeErr : TextNode :=
  { content := mkText ['x', '@', 'k'] fontF, backup := none }

/-- C5 counterexample: a variable whose consumer-specific resolution
throws is resolved to the empty string, not to absent — the placeholder
`@k` is removed (text `"x@k"` becomes `"x"`) and `k` is recorded in the
snapshot, contradicting "the affected placeholder is left untouched". -/
theorem c5_counterexample :
    resolveKey envErr ['k'] ≠ none ∧
    chars (replacePlaceholdersInNode envErr nodeErr).node.content
      ≠ chars nodeErr.content ∧
    (replacePlaceholdersInNode envErr nodeErr).snapshot
      = some [(['k'], [])] := by decide

theorem c5_witness :
    vErr.resolveForConsumer = some (Except.error ['b']) ∧
    resolveVariableValue vErr true = [] ∧
    resolveKey envErr ['k'] = some [] :=
  ⟨rfl, (c5_amended_resolver vErr ['b'] rfl).1,
   (c5_amended_resolver vErr ['b'] rfl).2 envErr ['k'] rfl⟩

theorem chars_map_styled (v : List Char) (f : Font) :
    chars (v.map (fun c => ({ ch := c, font := f } : SChar))) = v := by
  simp only [chars, List.map_map]
  have hcomp : (SChar.ch ∘ fun c => ({ ch := c, font := f } : SChar))
      = fun c => c := rfl
  rw [hcomp]
  exact List.map_id' v

/-- C2: each persisted record's `start` is the match's start in the
pre-mutation text plus the net length delta of all actionable matches
strictly before it, and consequently the record points at its resolved
value inside the post-substitution text. -/
theorem c2_record_offsets (env : Env) (node : TextNode)
    (h : actsOf env (scanPlaceholders (chars node.content)) ≠ []) :
    ∃ b, (replacePlaceholdersInNode env node).node.backup = some b ∧
      b.replacements = some (recordsOf node.content 0
        (actsOf env (scanPlaceholders (chars node.content)))) ∧
      ∀ (j : Nat) (r : RestoreRecord) (a : Match × List Char),
        (recordsOf node.content 0
          (actsOf env (scanPlaceholders (chars node.content)))).get? j = some r →
        (actsOf env (scanPlaceholders (chars node.content))).get? j = some a →
        r.start = (a.1.start : Int)
            + deltaSum ((actsOf env (scanPlaceholders (chars node.content))).take j) ∧
        sliceAt (chars (replacePlaceholdersInNode env node).node.content)
            r.start.toNat r.len = a.2 := by
  rw [replace_acts env node h]
  refine ⟨_, rfl, rfl, ?_⟩
  intro j r a hr ha
  constructor
  · have hg := recordsOf_get node.content
      (actsOf env (scanPlaceholders (chars node.content))) 0 j r a hr ha
    rw [hg.1]
    omega
  · have hs := records_slice env
      (iconLoadedOf env (actsOf env (scanPlaceholders (chars node.content))))
      node.content (scanPlaceholders (chars node.content)) [] node.content [] 0
      (by simp) (scanPlaceholders_wf (chars node.content)) (by simp) j r a hr ha
    simp only [List.nil_append, List.length_nil] at hs
    rw [sliceAt_chars, hs]
    exact chars_map_styled a.2 _

def nodeMain : TextNode :=
  { content := mkText ['@', 'a', ' ', '@', 'b', 'b'] fontF, backup := none }

theorem c2_witness :
    actsOf envMain (scanPlaceholders (chars nodeMain.content)) ≠ [] ∧
    (∃ b, (replacePlaceholdersInNode envMain nodeMain).node.backup = some b ∧
      b.replacements = some (recordsOf nodeMain.content 0
        (actsOf envMain (scanPlaceholders (chars nodeMain.content)))) ∧
      ∀ (j : Nat) (r : RestoreRecord) (a : Match × List Char),
        (recordsOf nodeMain.content 0
          (actsOf envMain (scanPlaceholders (chars nodeMain.content)))).get? j = some r →
        (actsOf envMain (scanPlaceholders (chars nodeMain.content))).get? j = some a →
        r.start = (a.1.start : Int)
            + deltaSum ((actsOf envMain
              (scanPlaceholders (chars nodeMain.content))).take j) ∧
        sliceAt (chars (replacePlaceholdersInNode envMain nodeMain).node.content)
            r.start.toNat r.len = a.2) :=
  ⟨by decide, c2_record_offsets envMain nodeMain (by decide)⟩

/-- C4: a match whose key does not resolve is left in place character
for character (at its shifted offset) and its key is absent from the
snapshot; a match that resolves to the empty string is replaced by the
empty string — the output text is the substitution of the text before
the match spliced directly onto the substitution of the text after the
match's end, so the placeholder span is removed — and its key is
recorded in the snapshot: empty and absent are treated differently. -/
theorem c4_absent_vs_empty (env : Env) (node : TextNode) (j : Nat) (m1 : Match)
    (hj : (scanPlaceholders (chars node.content)).get? j = some m1) :
    (resolveKey env m1.key = none →
      (∀ s, (replacePlaceholdersInNode env node).snapshot = some s →
        objGet s m1.key = none) ∧
      sliceAt (chars (replacePlaceholdersInNode env node).node.content)
          (((m1.start : Int) + deltaAt env
            ((scanPlaceholders (chars node.content)).take j)).toNat) m1.len
        = m1.raw) ∧
    (resolveKey env m1.key = some [] →
      chars (replacePlaceholdersInNode env node).node.content
        = substChars env 0 ((scanPlaceholders (chars node.content)).take j)
            ((chars node.content).take m1.start)
          ++ substChars env (m1.start + m1.len)
              ((scanPlaceholders (chars node.content)).drop (j + 1))
              ((chars node.content).drop (m1.start + m1.len)) ∧
      ∃ s, (replacePlaceholdersInNode env node).snapshot = some s ∧
        objGet s m1.key = some []) := by
  constructor
  · intro hnone
    constructor
    · intro s hs
      by_cases hacts : actsOf env (scanPlaceholders (chars node.content)) = []
      · rw [replace_no_acts env node hacts] at hs
        exact Option.noConfusion hs
      · rw [replace_acts env node hacts] at hs
        injection hs with hs
        subst hs
        exact objGet_snapOf_none env _ [] m1.key
          (actsOf_good env (scanPlaceholders (chars node.content))) hnone
    · have hu := unres_slice env
        (iconLoadedOf env (actsOf env (scanPlaceholders (chars node.content))))
        node.content (scanPlaceholders (chars node.content)) [] node.content [] 0
        (by simp) (scanPlaceholders_wf (chars node.content)) (by simp) j m1 hj hnone
      simp only [List.nil_append, List.length_nil] at hu
      have harith : (m1.start : Int) + 0 + deltaAt env
          ((scanPlaceholders (chars node.content)).take j)
          = (m1.start : Int) + deltaAt env
            ((scanPlaceholders (chars node.content)).take j) := by omega
      rw [harith] at hu
      rw [replace_content_styled env node, sliceAt_chars, hu.2, ← sliceAt_chars]
      have hmem := ScanWF_mem (chars node.content)
        (scanPlaceholders (chars node.content)) 0
        (scanPlaceholders_wf (chars node.content)) m1 (List.get?_mem hj)
      exact hmem.2.2.2.2
  · intro hempty
    constructor
    · rw [replace_content_styled env node, chars_substFrom]
      rw [substChars_split env (chars node.content)
        (scanPlaceholders (chars node.content)) 0 (chars node.content)
        (scanPlaceholders_wf (chars node.content)) j m1 [] hj hempty]
      simp
    · have hmem : (m1, []) ∈ actsOf env (scanPlaceholders (chars node.content)) :=
        mem_actsOf env _ m1 [] (List.get?_mem hj) hempty
      have hacts : actsOf env (scanPlaceholders (chars node.content)) ≠ [] := by
        intro h0
        rw [h0] at hmem
        exact absurd hmem (by simp)
      rw [replace_acts env node hacts]
      exact ⟨_, rfl, objGet_snapOf_mem env _ [] m1.key []
        (actsOf_good env _) hempty ⟨(m1, []), hmem, rfl⟩⟩

def envC4 : Env :=
  { vars := [strVar ['e'] []], collectionId := 0, collectionName := ['K'],
    iconFontFamily := [], iconFontStyle := [], iconLoadOk := false }

def nodeC4 : TextNode :=
  { content := mkText ['@', 'q', ' ', '@', 'e'] fontF, backup := none }

def mQ : Match := { key := ['q'], start := 0, len := 2, raw := ['@', 'q'] }

def mE : Match := { key := ['e'], start := 3, len := 2, raw := ['@', 'e'] }

theorem c4_witness :
    resolveKey envC4 mQ.key = none ∧
    ((∀ s, (replacePlaceholdersInNode envC4 nodeC4).snapshot = some s →
        objGet s mQ.key = none) ∧
      sliceAt (chars (replacePlaceholdersInNode envC4 nodeC4).node.content)
          (((mQ.start : Int) + deltaAt envC4
            ((scanPlaceholders (chars nodeC4.content)).take 0)).toNat) mQ.len
        = mQ.raw) ∧
    resolveKey envC4 mE.key = some [] ∧
    (chars (replacePlaceholdersInNode envC4 nodeC4).node.content
        = substChars envC4 0 ((scanPlaceholders (chars nodeC4.content)).take 1)
            ((chars nodeC4.content).take mE.start)
          ++ substChars envC4 (mE.start + mE.len)
              ((scanPlaceholders (chars nodeC4.content)).drop (1 + 1))
              ((chars nodeC4.content).drop (mE.start + mE.len)) ∧
      ∃ s, (replacePlaceholdersInNode envC4 nodeC4).snapshot = some s ∧
        objGet s mE.key = some []) ∧
    chars (replacePlaceholdersInNode envC4 nodeC4).node.content = ['@', 'q', ' '] :=
  ⟨by decide,
   (c4_absent_vs_empty envC4 nodeC4 0 mQ (by decide)).1 (by decide),
   by decide,
   (c4_absent_vs_empty envC4 nodeC4 1 mE (by decide)).2 (by decide),
   by decide⟩

/-- C8: an actionable match is routed to the icon font exactly when its
key begins with `icon/` and the configured icon font loaded successfully
(`iconLoadedOf`); otherwise — also when the icon font fails to load —
its inserted span receives the captured original font, and the pass
still completes (`changed = true`); each record stores the captured
pre-substitution font, and a restore step reapplies exactly that font
(not the icon font) to the reinserted placeholder span. -/
theorem c8_icon_routing (env : Env) (node : TextNode)
    (h : actsOf env (scanPlaceholders (chars node.content)) ≠ []) :
    (replacePlaceholdersInNode env node).changed = true ∧
    (∀ (j : Nat) (r : RestoreRecord) (a : Match × List Char),
      (recordsOf node.content 0
        (actsOf env (scanPlaceholders (chars node.content)))).get? j = some r →
      (actsOf env (scanPlaceholders (chars node.content))).get? j = some a →
      sliceAt (replacePlaceholdersInNode env node).node.content
          r.start.toNat r.len
        = a.2.map (fun c => (⟨c,
            if isIconKey a.1.key
                && iconLoadedOf env (actsOf env (scanPlaceholders (chars node.content)))
              then iconFontOf env
              else fontAtD node.content a.1.start⟩ : SChar)) ∧
      r.originalFont = some (fontAtD node.content a.1.start)) ∧
    (∀ (content1 : Text) (r : RestoreRecord) (A P B : Text) (f : Font),
      r.originalFont = some f → content1 = A ++ P ++ B →
      A.length = r.start.toNat → P.length = r.len →
      restoreStep content1 r
        = A ++ r.originalText.map (fun c => ({ ch := c, font := f } : SChar)) ++ B) := by
  refine ⟨?_, ?_, ?_⟩
  · rw [replace_acts env node h]
  · intro j r a hr ha
    have hamem : a ∈ actsOf env (scanPlaceholders (chars node.content)) :=
      List.get?_mem ha
    have hmmem : a.1 ∈ scanPlaceholders (chars node.content) :=
      actsOf_mem_ms env _ a hamem
    have hfacts := ScanWF_mem (chars node.content)
      (scanPlaceholders (chars node.content)) 0
      (scanPlaceholders_wf (chars node.content)) a.1 hmmem
    have hlt : a.1.start < node.content.length := by
      have hb := hfacts.2.2.1
      rw [length_chars] at hb
      have h1 := hfacts.1
      have h2 := hfacts.2.1
      omega
    have hcap : capturedFontOf node.content a.1
        = some (fontAtD node.content a.1.start) := by
      simp [capturedFontOf, hlt]
    have hvf : valFont env
        (iconLoadedOf env (actsOf env (scanPlaceholders (chars node.content))))
        node.content a.1
        = if isIconKey a.1.key
            && iconLoadedOf env (actsOf env (scanPlaceholders (chars node.content)))
          then iconFontOf env
          else fontAtD node.content a.1.start := by
      rw [valFont, hcap]
      rfl
    constructor
    · have hs := records_slice env
        (iconLoadedOf env (actsOf env (scanPlaceholders (chars node.content))))
        node.content (scanPlaceholders (chars node.content)) [] node.content [] 0
        (by simp) (scanPlaceholders_wf (chars node.content)) (by simp) j r a hr ha
      simp only [List.nil_append, List.length_nil] at hs
      rw [replace_content_styled env node, hs, hvf]
    · have hg := recordsOf_get node.content
        (actsOf env (scanPlaceholders (chars node.content))) 0 j r a hr ha
      rw [hg.2.2.2, hcap]
  · intro content1 r A P B f hf hsplit hA hP
    subst hsplit
    exact restoreStep_eq r A P B f hA hP hf

def nodeIcon : TextNode :=
  { content := mkText ['@', 'i', 'c', 'o', 'n', '/', 's'] fontF, backup := none }

theorem c8_witness :
    actsOf envMain (scanPlaceholders (chars nodeIcon.content)) ≠ [] ∧
    (replacePlaceholdersInNode envMain nodeIcon).changed = true ∧
    (replacePlaceholdersInNode envMain nodeIcon).node.content
      = [{ ch := 'S', font := iconFontOf envMain }] :=
  ⟨by decide, (c8_icon_routing envMain nodeIcon (by decide)).1, by decide⟩

/-- C9 (amended): whenever the two scanners produce the same match list
on a text, the two substitution engines produce the same final text
content (ignoring styling).  In general the scanners differ — the
legacy key grammar also accepts dots at the end or in a row — and the
final texts can then differ too. -/
theorem c9_amended_equal_scan (env : Env) (node : TextNode)
    (h : scanPlaceholders (chars node.content)
      = scanPlaceholders2 (chars node.content)) :
    chars (replacePlaceholdersInNode env node).node.content
      = chars (replacePlaceholdersInNode2 env node).node.content := by
  by_cases hms : scanPlaceholders2 (chars node.content) = []
  · have hms1 : scanPlaceholders (chars node.content) = [] := by rw [h, hms]
    have hacts : actsOf env (scanPlaceholders (chars node.content)) = [] := by
      rw [hms1]
      rfl
    rw [replace_no_acts env node hacts]
    simp [replacePlaceholdersInNode2, hms]
  · rw [replace2_scan env node hms, chars_setCharacters,
      replace_content_styled env node, chars_substFrom, h]

def envC9 : Env :=
  { vars := [strVar ['a'] ['X']], collectionId := 0, collectionName := ['K'],
    iconFontFamily := [], iconFontStyle := [], iconLoadOk := false }

def nodeC9 : TextNode :=
  { content := mkText ['@', 'a', '.'] fontF, backup := none }

/-- C9 counterexample: on `"@a."` the offset-tracked scanner matches
`@a` (the trailing dot cannot start a new segment) while the legacy
scanner matches `@a.`; with `a ↦ "X"` the engines produce `"X."` versus
the untouched `"@a."`. -/
theorem c9_counterexample :
    scanPlaceholders (chars nodeC9.content)
      ≠ scanPlaceholders2 (chars nodeC9.content) ∧
    chars (replacePlaceholdersInNode envC9 nodeC9).node.content
      ≠ chars (replacePlaceholdersInNode2 envC9 nodeC9).node.content ∧
    chars (replacePlaceholdersInNode envC9 nodeC9).node.content = ['X', '.'] ∧
    chars (replacePlaceholdersInNode2 envC9 nodeC9).node.content
      = ['@', 'a', '.'] := by decide

def nodeW9 : TextNode :=
  { content := mkText ['@', 'a', ' ', 'b'] fontF, backup := none }

theorem c9_witness :
    scanPlaceholders (chars nodeW9.content)
      = scanPlaceholders2 (chars nodeW9.content) ∧
    chars (replacePlaceholdersInNode envC9 nodeW9).node.content
      = chars (replacePlaceholdersInNode2 envC9 nodeW9).node.content :=
  ⟨by decide, c9_amended_equal_scan envC9 nodeW9 (by decide)⟩

def envAB : Env :=
  { vars := [strVar ['a'] [], strVar ['b'] []], collectionId := 0,
    collectionName := ['K'], iconFontFamily := [], iconFontStyle := [],
    iconLoadOk := false }

def nodeAB : TextNode :=
  { content := mkText ['@', 'a', '@', 'b'] fontF, backup := none }

/-- C1 counterexample: in `"@a@b"` with both keys resolving to the empty
string, both restore records get `start = 0`; the stable descending sort
keeps them in forward order, so restoration reinserts them in the wrong
order and the round trip returns `"@b@a"`, not the original `"@a@b"` —
even though every scanned key resolves to a string value. -/
theorem c1_counterexample :
    (∀ m ∈ scanPlaceholders (chars nodeAB.content),
      (resolveKey envAB m.key).isSome = true) ∧
    (restorePlaceholdersInNode
      (replacePlaceholdersInNode envAB nodeAB).node).node.content
      ≠ nodeAB.content ∧
    chars (restorePlaceholdersInNode
      (replacePlaceholdersInNode envAB nodeAB).node).node.content
      = ['@', 'b', '@', 'a'] := by decide

theorem c1_witness :
    (∀ m ∈ scanPlaceholders (chars nodeMain.content),
      (resolveKey envMain m.key).isSome = true) ∧
    SepOK (actsOf envMain (scanPlaceholders (chars nodeMain.content))) ∧
    (restorePlaceholdersInNode
      (replacePlaceholdersInNode envMain nodeMain).node).node.content
      = nodeMain.content :=
  ⟨by decide, by decide,
   c1_amended_roundtrip envMain nodeMain (by decide) (by decide) (by decide)⟩

def nodeMixed : TextNode :=
  { content := [{ ch := '@', font := fontF }, { ch := 'a', font := fontG }],
    backup := none }

/-- A mixed-font placeholder span loses styling over the round trip: the
characters come back but the whole span is restyled with the captured
first-character font, so per-run font equality fails without the
uniform-span proviso. -/
theorem roundtrip_font_loss_example :
    chars (restorePlaceholdersInNode
      (replacePlaceholdersInNode envC9 nodeMixed).node).node.content
      = chars nodeMixed.content ∧
    (restorePlaceholdersInNode
      (replacePlaceholdersInNode envC9 nodeMixed).node).node.content
      ≠ nodeMixed.content := by decide

end PRR
